import Mathlib

/-!
Shallow embedding of `src/game.py` (a CLI Latin-quote quiz game) and proofs
about its specification.

Modelling conventions:
* JSON values (as handled by Python's `json` module) are the inductive `Json`;
  numbers are restricted to integers, the only numbers this program writes
  (quote ids).  Floating point literals are outside the model.
* Python dicts are association lists (`JDict`); a repeated key keeps the last
  binding, as in Python.
* Randomness (`random.sample`, `random.choice`) is an oracle `Nat → Nat`
  consulted step by step; `random.sample` is modelled as repeated removal of
  an oracle-chosen index, which produces exactly the observable guarantees of
  CPython's implementation: `k` selections without replacement, and
  `ValueError` unless `0 ≤ k ≤ n`.
* Console output is a list of printed strings; `input()` is an oracle
  `Nat → String` indexed by round.
* Exceptions are `Except String`; `typer.Exit()` (a graceful exit caught by
  the CLI layer) is a normal outcome, not an error.
* `str.strip` and `str.lower` are modelled explicitly over character lists
  (`pyStrip`, `pyLower`); case folding is ASCII, which covers every answer
  the claims compare.
-/

namespace LatinQuotes

/-- JSON values, with numbers restricted to integers. -/
inductive Json where
  | null : Json
  | bool (b : Bool) : Json
  | int (n : Int) : Json
  | str (s : String) : Json
  | arr (elems : List Json) : Json
  | obj (members : List (String × Json)) : Json
deriving Repr

/-- A Python dict with string keys, as parsed from a JSON object. -/
abbrev JDict := List (String × Json)

/-- The character `\x7b` (opening curly brace). -/
def lbrace : Char := Char.ofNat 123

/-- The character `\x7d` (closing curly brace). -/
def rbrace : Char := Char.ofNat 125

/-- The apostrophe character. -/
def squote : String := String.singleton (Char.ofNat 39)

/-- Decimal digit to character. -/
def digitChar (d : Nat) : Char := Char.ofNat (48 + d)

/-- Decimal digits, most significant first; the fuel (first argument) bounds
the recursion depth and is immaterial as long as it exceeds the number of
digits. -/
def natToCharsAux : Nat → Nat → List Char
  | 0, _ => []
  | fuel + 1, n =>
      if n < 10 then [digitChar n]
      else natToCharsAux fuel (n / 10) ++ [digitChar (n % 10)]

/-- Decimal digits of a natural number, most significant first. -/
def natToChars (n : Nat) : List Char := natToCharsAux (n + 1) n

/-- Decimal rendering of an integer (Python `str` of an `int`). -/
def intToChars (n : Int) : List Char :=
  if n < 0 then '-' :: natToChars n.natAbs else natToChars n.natAbs

def natToStr (n : Nat) : String := String.mk (natToChars n)

def intToStr (n : Int) : String := String.mk (intToChars n)

mutual
/-- Python `repr` of a parsed-JSON value (string escaping approximated). -/
def pyRepr : Json → String
  | .null => "None"
  | .bool true => "True"
  | .bool false => "False"
  | .int n => intToStr n
  | .str s => squote ++ s ++ squote
  | .arr l => "[" ++ pyReprElems l ++ "]"
  | .obj l => String.singleton lbrace ++ pyReprMembers l ++ String.singleton rbrace

def pyReprElems : List Json → String
  | [] => ""
  | [v] => pyRepr v
  | v :: vs => pyRepr v ++ ", " ++ pyReprElems vs

def pyReprMembers : List (String × Json) → String
  | [] => ""
  | [(k, v)] => squote ++ k ++ squote ++ ": " ++ pyRepr v
  | (k, v) :: ms => squote ++ k ++ squote ++ ": " ++ pyRepr v ++ ", " ++ pyReprMembers ms
end

/-- Python `str` of a parsed-JSON value, as interpolated by an f-string. -/
def pyStr : Json → String
  | .str s => s
  | v => pyRepr v

/-- Python dict lookup (`d[k]` without the exception): the last binding wins. -/
def dictGet (d : JDict) (k : String) : Option Json :=
  ((d.filter (fun p => p.1 == k)).getLast?).map (fun p => p.2)

/-- Python `d[k]`: `KeyError` when the key is absent. -/
def getItem (d : JDict) (k : String) : Except String Json :=
  match dictGet d k with
  | some v => .ok v
  | none => .error ("KeyError: " ++ k)

/-- Python truthiness of a parsed-JSON value. -/
def truthy : Json → Bool
  | .null => false
  | .bool b => b
  | .int n => decide (n ≠ 0)
  | .str s => decide (s ≠ "")
  | .arr l => !l.isEmpty
  | .obj l => !l.isEmpty

/-- The characters stripped by Python's `str.strip()`:
space, `\t`, `\n`, `\r`, `\v`, `\f`. -/
def isPyWs (c : Char) : Bool :=
  c = ' ' || c = '\t' || c = '\n' || c = '\r' || c = Char.ofNat 11 || c = Char.ofNat 12

/-- `str.strip()`: remove leading and trailing whitespace. -/
def pyStrip (s : String) : String :=
  String.mk (((s.data.dropWhile isPyWs).reverse.dropWhile isPyWs).reverse)

/-- `str.lower()` on one character (ASCII case folding; every answer the
claims compare is ASCII). -/
def lowerChar (c : Char) : Char :=
  if 65 ≤ c.toNat ∧ c.toNat ≤ 90 then Char.ofNat (c.toNat + 32) else c

/-- `str.lower()`. -/
def pyLower (s : String) : String := String.mk (s.data.map lowerChar)

/-- `user_input.strip().lower()`: trim surrounding whitespace, fold case. -/
def stripLower (s : String) : String := pyLower (pyStrip s)

/-! ### `get_next_id` (src/game.py lines 45-50) -/

/-- `[q["id"] for q in quotes]`, failing like Python on a missing `id` key;
non-integer ids are collapsed to one error (Python raises `TypeError` either
at `max` or at the final `+ 1`). -/
def getIds : List JDict → Except String (List Int)
  | [] => .ok []
  | d :: ds =>
      match getItem d "id" with
      | .error e => .error e
      | .ok (.int n) =>
          match getIds ds with
          | .error e => .error e
          | .ok ns => .ok (n :: ns)
      | .ok _ => .error "TypeError: unsupported id type"

/-- `get_next_id(quotes)`: 1 on an empty list, else the maximum id plus 1. -/
def get_next_id (quotes : List JDict) : Except String Int :=
  if quotes.isEmpty then .ok 1
  else
    match getIds quotes with
    | .error e => .error e
    | .ok [] => .error "max() arg is an empty sequence"
    | .ok (n :: ns) => .ok (ns.foldl max n + 1)

/-! ### `add` (src/game.py lines 116-143), after the interactive prompts -/

/-- The five free-text answers collected by `add`'s prompts. -/
structure AddInputs where
  latin_text : String
  english_translation : String
  author : String
  work : String
  notes : String

/-- The dict literal built by `add`, with `id` inserted last (Python dicts
preserve insertion order). -/
def newQuoteDict (ins : AddInputs) (nid : Int) : JDict :=
  [("latin_text", .str ins.latin_text),
   ("english_translation", .str ins.english_translation),
   ("author", .str ins.author),
   ("work", .str ins.work),
   ("notes", .str ins.notes),
   ("id", .int nid)]

/-- Lines 138-141 of `add`: assign the next id, append, and return the new
collection together with the assigned id. -/
def add_core (ins : AddInputs) (quotes : List JDict) : Except String (List JDict × Int) :=
  match get_next_id quotes with
  | .error e => .error e
  | .ok nid => .ok (quotes ++ [newQuoteDict ins nid], nid)

/-! ### `list` (src/game.py lines 146-165) -/

/-- `quote.get(k, 'N/A')` rendered by the f-string. -/
def getDefault (d : JDict) (k : String) (dflt : String) : String :=
  match dictGet d k with
  | some v => pyStr v
  | none => dflt

/-- The lines printed for one quote by `list`; `quote['id']` raises `KeyError`
when `id` is absent, the other fields fall back to `"N/A"` via `.get`, and the
notes line appears only when `quote.get('notes')` is truthy. -/
def quoteLines (d : JDict) : Except String (List String) :=
  match getItem d "id" with
  | .error e => .error e
  | .ok idv =>
      .ok (["\nID: " ++ pyStr idv,
        "  Latin: " ++ getDefault d "latin_text" "N/A",
        "  English: " ++ getDefault d "english_translation" "N/A",
        "  Author: " ++ getDefault d "author" "N/A",
            "  Work: " ++ getDefault d "work" "N/A"]
           ++ (match dictGet d "notes" with
               | some v => if truthy v then ["  Notes: " ++ pyStr v] else []
               | none => []))

/-- The per-quote blocks of `list`, in order, stopping at the first error. -/
def listBlocks : List JDict → Except String (List String)
  | [] => .ok []
  | d :: ds =>
      match quoteLines d with
      | .error e => .error e
      | .ok ls =>
          match listBlocks ds with
          | .error e => .error e
          | .ok rest => .ok (ls ++ rest)

/-- `list_quotes()` applied to an already-loaded collection: the sequence of
printed lines, or the uncaught exception. -/
def list_quotes (quotes : List JDict) : Except String (List String) :=
  if quotes.isEmpty then .ok ["📚 The database is empty."]
  else
    match listBlocks quotes with
    | .error e => .error e
    | .ok blocks =>
        .ok ("--- 📖 All Quotes in Database ---" :: blocks ++ ["------------------------------"])

/-! ### `play` (src/game.py lines 64-113) -/

/-- `random.sample`'s selection loop: remove an oracle-chosen index `k` times.
The oracle is consulted once per selection. -/
def sampleAux : List α → Nat → (Nat → Nat) → Nat → List α
  | _, 0, _, _ => []
  | [], _ + 1, _, _ => []
  | p :: ps, m + 1, r, step =>
      (p :: ps).get ⟨r step % (p :: ps).length, Nat.mod_lt _ (by simp)⟩ ::
        sampleAux ((p :: ps).eraseIdx (r step % (p :: ps).length)) m r (step + 1)

/-- `random.sample(population, k)`: `ValueError` unless `0 ≤ k ≤ n`, else `k`
distinct draws without replacement. -/
def sample (population : List α) (k : Int) (r : Nat → Nat) : Except String (List α) :=
  if k < 0 ∨ (population.length : Int) < k then
    .error "Sample larger than population or is negative"
  else .ok (sampleAux population k.toNat r 0)

/-- The field holding the expected answer for each game mode
(`random.choice(["translate", "author", "work"])`, modelled as mode index
`0`, `1`, `2`). -/
def answerField (mode : Nat) : String :=
  if mode = 0 then "english_translation" else if mode = 1 then "author" else "work"

/-- The question text printed for each game mode. -/
def questionText (mode : Nat) (latin : Json) : String :=
  if mode = 0 then "Translate this quote to English:\n\n> " ++ pyStr latin
  else if mode = 1 then "Who is the author of this quote?\n\n> " ++ pyStr latin
  else "What work is this quote from?\n\n> " ++ pyStr latin

/-- `.strip()` is only available on strings: `AttributeError` otherwise. -/
def asPyString (v : Json) : Except String String :=
  match v with
  | .str s => .ok s
  | _ => .error "AttributeError: object has no attribute strip"

/-- One round's body (src/game.py lines 88-110): build the question, read the
answer, compare case-insensitively after stripping.  Returns the printed lines
and whether the score was incremented. -/
def playRound (q : JDict) (mode : Nat) (userInput : String) : Except String (List String × Bool) :=
  match getItem q "latin_text" with
  | .error e => .error e
  | .ok latin =>
      match getItem q (answerField mode) with
      | .error e => .error e
      | .ok answerVal =>
          match asPyString answerVal with
          | .error e => .error e
          | .ok answer =>
              let correct := stripLower userInput == stripLower answer
              let resultLine :=
                if correct then "✅ Correct! The answer is: " ++ answer
                else "❌ Incorrect. The correct answer was: " ++ answer
              .ok ([questionText mode latin, "\nYour answer: ", resultLine], correct)

/-- The `for i, quote in enumerate(game_quotes)` loop: returns all printed
lines and the score accumulated, or the uncaught exception. -/
def runRounds (numRounds : Int) (modeR : Nat → Nat) (inputs : Nat → String) :
    List JDict → Nat → Except String (List String × Nat)
  | [], _ => .ok ([], 0)
  | q :: qs, i =>
      match playRound q (modeR i % 3) (inputs i) with
      | .error e => .error e
      | .ok (lines, correct) =>
          match runRounds numRounds modeR inputs qs (i + 1) with
          | .error e => .error e
          | .ok (restOut, restScore) =>
              .ok (("\n--- Round " ++ natToStr (i + 1) ++ " of " ++ intToStr numRounds ++ " ---")
                     :: lines ++ restOut,
                   (if correct then 1 else 0) + restScore)

/-- The message printed by `play` on an empty collection. -/
def noQuotesMsg : String :=
  "❌ No quotes found in the database. Add some with the " ++ squote ++ "add" ++
    squote ++ " command first!"

def welcomeMsg : String := "--- 🏛️ Welcome to the Latin Quote Quiz! ---"

def gameOverMsg : String := "\n--- 🏆 Game Over! ---"

/-- How a `play` invocation ends: a graceful `typer.Exit()` on an empty
collection, or a completed session with its printed output, final score,
`num_rounds`, and the sampled `game_quotes` (the questions asked). -/
inductive PlayOutcome where
  | emptyExit (output : List String) : PlayOutcome
  | finished (output : List String) (score : Nat) (numRounds : Int)
      (asked : List JDict) : PlayOutcome

/-- `play(rounds)` applied to an already-loaded collection.  `sampleR` drives
`random.sample`, `modeR` drives `random.choice`, `inputs` is the user's answer
per round. -/
def play (quotes : List JDict) (rounds : Int) (sampleR modeR : Nat → Nat)
    (inputs : Nat → String) : Except String PlayOutcome :=
  if quotes.isEmpty then .ok (.emptyExit [noQuotesMsg])
  else
    match sample quotes (min rounds (quotes.length : Int)) sampleR with
    | .error e => .error e
    | .ok gameQuotes =>
        match runRounds (min rounds (quotes.length : Int)) modeR inputs gameQuotes 0 with
        | .error e => .error e
        | .ok (roundsOut, score) =>
            .ok (.finished
                  (welcomeMsg :: roundsOut ++
                    [gameOverMsg,
                     "Your final score: " ++ natToStr score ++ "/" ++
                       intToStr (min rounds (quotes.length : Int))])
                  score (min rounds (quotes.length : Int)) gameQuotes)

/-- A quote whose fields accessed by `play` are usable: `latin_text` present
(it is only interpolated into the question) and the three answer fields
present with string values, as §3's data model requires. -/
def wfPlay (d : JDict) : Prop :=
  (dictGet d "latin_text").isSome = true ∧
  (∃ s, dictGet d "english_translation" = some (Json.str s)) ∧
  (∃ s, dictGet d "author" = some (Json.str s)) ∧
  (∃ s, dictGet d "work" = some (Json.str s))

/-- Concrete quote used by witnesses: expected translation `"rome"`. -/
def romeQuote : JDict := newQuoteDict ⟨"Rōma", "rome", "Caesar", "De Bello Gallico", ""⟩ 1

/-- Concrete quote used by witnesses. -/
def veniQuote : JDict := newQuoteDict ⟨"Vēnī", "I came", "Caesar", "De Bello Gallico", ""⟩ 1

/-- Concrete quote used by witnesses. -/
def aleaQuote : JDict := newQuoteDict ⟨"Ālea iacta est", "The die is cast", "Caesar", "Life", "a note"⟩ 2

/-! ### `json.dump(quotes, f, indent=2, ensure_ascii=False)`
(src/game.py lines 34-43) -/

/-- Indentation: `indent * level` spaces. -/
def indentChars (n : Nat) : List Char := List.replicate n ' '

/-- Lower-case hexadecimal digit. -/
def hexChar (d : Nat) : Char := if d < 10 then Char.ofNat (48 + d) else Char.ofNat (87 + d)

/-- `json.dump`'s escaping with `ensure_ascii=False`: only `"`, `\` and
control characters are escaped; everything else — non-ASCII included — is
written literally. -/
def escChar (c : Char) : List Char :=
  if c = '"' then ['\\', '"']
  else if c = '\\' then ['\\', '\\']
  else if c = Char.ofNat 8 then ['\\', 'b']
  else if c = Char.ofNat 9 then ['\\', 't']
  else if c = Char.ofNat 10 then ['\\', 'n']
  else if c = Char.ofNat 12 then ['\\', 'f']
  else if c = Char.ofNat 13 then ['\\', 'r']
  else if c.toNat < 32 then ['\\', 'u', '0', '0', hexChar (c.toNat / 16), hexChar (c.toNat % 16)]
  else [c]

def encodeChars (cs : List Char) : List Char := (cs.map escChar).flatten

/-- A JSON string literal: quote, escaped body, quote. -/
def encodeString (s : String) : List Char := '"' :: (encodeChars s.data ++ ['"'])

mutual
/-- The exact characters `json.dump(v, indent=2, ensure_ascii=False)` writes
for `v` at indentation level `lvl`. -/
def dumpVal : Json → Nat → List Char
  | .null, _ => ['n', 'u', 'l', 'l']
  | .bool true, _ => ['t', 'r', 'u', 'e']
  | .bool false, _ => ['f', 'a', 'l', 's', 'e']
  | .int n, _ => intToChars n
  | .str s, _ => encodeString s
  | .arr [], _ => ['[', ']']
  | .arr (v :: vs), lvl =>
      '[' :: '\n' :: (indentChars (lvl + 2) ++ (dumpVal v (lvl + 2) ++
        (dumpElems vs (lvl + 2) ++ '\n' :: (indentChars lvl ++ [']']))))
  | .obj [], _ => [lbrace, rbrace]
  | .obj (m :: ms), lvl =>
      lbrace :: '\n' :: (indentChars (lvl + 2) ++ (dumpMember m (lvl + 2) ++
        (dumpMembers ms (lvl + 2) ++ '\n' :: (indentChars lvl ++ [rbrace]))))

/-- One `"key": value` member. -/
def dumpMember : String × Json → Nat → List Char
  | (k, v), lvl => encodeString k ++ (':' :: ' ' :: dumpVal v lvl)

/-- The remaining array items, each preceded by `,\n` and indentation. -/
def dumpElems : List Json → Nat → List Char
  | [], _ => []
  | v :: vs, lvl => ',' :: '\n' :: (indentChars lvl ++ (dumpVal v lvl ++ dumpElems vs lvl))

/-- The remaining object members, each preceded by `,\n` and indentation. -/
def dumpMembers : List (String × Json) → Nat → List Char
  | [], _ => []
  | m :: ms, lvl => ',' :: '\n' :: (indentChars lvl ++ (dumpMember m lvl ++ dumpMembers ms lvl))
end

/-- The full file content written for `v`. -/
def dumpStr (v : Json) : String := String.mk (dumpVal v 0)

/-- `save_quotes(quotes)`: overwrite the file with the pretty-printed dump.
The file is `none` when absent, `some content` otherwise. -/
def save_quotes (v : Json) (_file : Option String) : Option String := some (dumpStr v)

/-! ### `json.load` (used by `load_quotes`, src/game.py lines 14-32) -/

/-- JSON whitespace. -/
def jsonWs (c : Char) : Bool := c = ' ' || c = '\t' || c = '\n' || c = '\r'

def skipWs : List Char → List Char
  | [] => []
  | c :: cs => if jsonWs c then skipWs cs else c :: cs

def hexVal? (c : Char) : Option Nat :=
  if 48 ≤ c.toNat ∧ c.toNat ≤ 57 then some (c.toNat - 48)
  else if 97 ≤ c.toNat ∧ c.toNat ≤ 102 then some (c.toNat - 87)
  else if 65 ≤ c.toNat ∧ c.toNat ≤ 70 then some (c.toNat - 55)
  else none

/-- Short escape codes accepted after a backslash. -/
def escCode (e : Char) : Option Char :=
  if e = '"' then some '"'
  else if e = '\\' then some '\\'
  else if e = '/' then some '/'
  else if e = 'b' then some (Char.ofNat 8)
  else if e = 't' then some (Char.ofNat 9)
  else if e = 'n' then some (Char.ofNat 10)
  else if e = 'f' then some (Char.ofNat 12)
  else if e = 'r' then some (Char.ofNat 13)
  else none

/-- Parse a JSON string body after the opening quote: the decoded characters
and the remaining input.  Raw control characters are rejected (`strict=True`),
as in Python.  The fuel bounds recursion and always exceeds the consumed
characters at the call sites. -/
def parseStr : Nat → List Char → Except String (List Char × List Char)
  | 0, _ => .error "Fuel exhausted"
  | _ + 1, [] => .error "Unterminated string"
  | fuel + 1, c :: cs =>
      if c = '"' then .ok ([], cs)
      else if c = '\\' then
        match cs with
        | [] => .error "Unterminated string"
        | e :: cs2 =>
            match escCode e with
            | some d =>
                match parseStr fuel cs2 with
                | .error msg => .error msg
                | .ok (s, r) => .ok (d :: s, r)
            | none =>
                if e = 'u' then
                  match cs2 with
                  | h1 :: h2 :: h3 :: h4 :: cs3 =>
                      match hexVal? h1, hexVal? h2, hexVal? h3, hexVal? h4 with
                      | some a, some b, some c4, some d4 =>
                          match parseStr fuel cs3 with
                          | .error msg => .error msg
                          | .ok (s, r) =>
                              .ok (Char.ofNat (4096 * a + 256 * b + 16 * c4 + d4) :: s, r)
                      | _, _, _, _ => .error "Invalid hex escape"
                  | _ => .error "Invalid hex escape"
                else .error "Invalid escape"
      else if c.toNat < 32 then .error "Invalid control character"
      else
        match parseStr fuel cs with
        | .error msg => .error msg
        | .ok (s, r) => .ok (c :: s, r)
termination_by structural fuel _ => fuel

def isDigitChar (c : Char) : Bool := 48 ≤ c.toNat && c.toNat ≤ 57

def digitVal (c : Char) : Nat := c.toNat - 48

def parseNatChars (ds : List Char) : Nat := ds.foldl (fun a c => 10 * a + digitVal c) 0

/-- Would the number continue as a float (fraction or exponent)?  Floats are
outside the model: this program only ever writes integer ids. -/
def startsFloat : List Char → Bool
  | [] => false
  | c :: _ => c = '.' || c = 'e' || c = 'E'

/-- Parse an integer literal (optional minus sign, digits). -/
def parseNum (cs : List Char) : Except String (Json × List Char) :=
  if cs.head? = some '-' then
    match cs.tail.span isDigitChar with
    | (ds, r) =>
        if ds.isEmpty then .error "Expecting value"
        else if startsFloat r then .error "Floating point is outside the model"
        else .ok (.int (-(parseNatChars ds : Int)), r)
  else
    match cs.span isDigitChar with
    | (ds, r) =>
        if ds.isEmpty then .error "Expecting value"
        else if startsFloat r then .error "Floating point is outside the model"
        else .ok (.int ((parseNatChars ds : Int)), r)

mutual
/-- Recursive-descent JSON value parser; the fuel only bounds nesting of
recursive calls and is chosen large enough in `parseJson`. -/
def parseValue : Nat → List Char → Except String (Json × List Char)
  | 0, _ => .error "Fuel exhausted"
  | fuel + 1, cs =>
      match skipWs cs with
      | [] => .error "Expecting value"
      | c :: r =>
          if c = '[' then
            if (skipWs r).head? = some ']' then .ok (.arr [], (skipWs r).tail)
            else
              match parseElems fuel r with
              | .error e => .error e
              | .ok (vs, r3) => .ok (.arr vs, r3)
          else if c = lbrace then
            if (skipWs r).head? = some rbrace then .ok (.obj [], (skipWs r).tail)
            else
              match parseMembers fuel r with
              | .error e => .error e
              | .ok (ms, r3) => .ok (.obj ms, r3)
          else if c = '"' then
            match parseStr fuel r with
            | .error e => .error e
            | .ok (s, r2) => .ok (.str (String.mk s), r2)
          else if c = 'n' then
            match r with
            | 'u' :: 'l' :: 'l' :: r2 => .ok (.null, r2)
            | _ => .error "Expecting value"
          else if c = 't' then
            match r with
            | 'r' :: 'u' :: 'e' :: r2 => .ok (.bool true, r2)
            | _ => .error "Expecting value"
          else if c = 'f' then
            match r with
            | 'a' :: 'l' :: 's' :: 'e' :: r2 => .ok (.bool false, r2)
            | _ => .error "Expecting value"
          else if c = '-' ∨ isDigitChar c then parseNum (c :: r)
          else .error "Expecting value"
termination_by structural fuel _ => fuel

/-- Parse `value (, value)* ]` inside an array. -/
def parseElems : Nat → List Char → Except String (List Json × List Char)
  | 0, _ => .error "Fuel exhausted"
  | fuel + 1, cs =>
      match parseValue fuel cs with
      | .error e => .error e
      | .ok (v, r) =>
          if (skipWs r).head? = some ',' then
            match parseElems fuel (skipWs r).tail with
            | .error e => .error e
            | .ok (vs, r3) => .ok (v :: vs, r3)
          else if (skipWs r).head? = some ']' then .ok ([v], (skipWs r).tail)
          else .error "Expecting delimiter"
termination_by structural fuel _ => fuel

/-- Parse `"key": value (, "key": value)* rbrace` inside an object. -/
def parseMembers : Nat → List Char → Except String (List (String × Json) × List Char)
  | 0, _ => .error "Fuel exhausted"
  | fuel + 1, cs =>
      match skipWs cs with
      | [] => .error "Expecting property name"
      | c :: r =>
          if c = '"' then
            match parseStr fuel r with
            | .error e => .error e
            | .ok (k, r1) =>
                if (skipWs r1).head? = some ':' then
                  match parseValue fuel (skipWs r1).tail with
                  | .error e => .error e
                  | .ok (v, r3) =>
                      if (skipWs r3).head? = some ',' then
                        match parseMembers fuel (skipWs r3).tail with
                        | .error e => .error e
                        | .ok (ms, r5) => .ok ((String.mk k, v) :: ms, r5)
                      else if (skipWs r3).head? = some rbrace then
                        .ok ([(String.mk k, v)], (skipWs r3).tail)
                      else .error "Expecting delimiter"
                else .error "Expecting colon delimiter"
          else .error "Expecting property name"
termination_by structural fuel _ => fuel
end

/-- `json.load`: parse a whole document; trailing non-whitespace is an
error.  The fuel `2 * length + 2` dominates every possible chain of
recursive calls on the input. -/
def parseJson (s : String) : Except String Json :=
  match parseValue (2 * s.length + 2) s.data with
  | .error e => .error e
  | .ok (v, rest) =>
      match skipWs rest with
      | [] => .ok v
      | _ => .error "Extra data"

/-- `load_quotes()` (src/game.py lines 14-32) acting on the file state:
absent file → write `[]` and return the empty collection; unparsable
content → return the empty collection; parsed content → return it. -/
def load_quotes : Option String → Json × Option String
  | none => (Json.arr [], save_quotes (Json.arr []) none)
  | some s =>
      match parseJson s with
      | .ok v => (v, some s)
      | .error _ => (Json.arr [], some s)

mutual
/-- Fuel sufficient for `parseValue` to parse the dump of `v`. -/
def jfuel : Json → Nat
  | .null => 1
  | .bool _ => 1
  | .int _ => 1
  | .str s => s.length + 2
  | .arr l => 1 + efuel l
  | .obj l => 1 + mfuel l

/-- Fuel sufficient for `parseElems` on the dumped elements. -/
def efuel : List Json → Nat
  | [] => 1
  | v :: vs => 1 + jfuel v + efuel vs

/-- Fuel sufficient for `parseMembers` on the dumped members. -/
def mfuel : List (String × Json) → Nat
  | [] => 1
  | m :: ms => 2 + m.1.length + jfuel m.2 + mfuel ms
end

/-- Lists made of JSON whitespace only. -/
def WsList (ws : List Char) : Prop := ∀ c ∈ ws, jsonWs c = true

/-- What may legally follow a dumped value without extending its final
token: nothing, a comma, or a newline. -/
def RestOk (rest : List Char) : Prop :=
  rest = [] ∨ ∃ c cs, rest = c :: cs ∧ (c = ',' ∨ c = '\n')

/-! ## Helper lemmas -/

theorem getIds_length : ∀ {qs : List JDict} {ids : List Int}, getIds qs = .ok ids →
    ids.length = qs.length := by
  intro qs
  induction qs with
  | nil =>
      intro ids h
      simp only [getIds, Except.ok.injEq] at h
      simp [← h]
  | cons d ds ih =>
      intro ids h
      rw [getIds] at h
      split at h
      · exact absurd h (by simp)
      · split at h
        · exact absurd h (by simp)
        · rename_i ns hns
          simp only [Except.ok.injEq] at h
          subst h
          simp [ih hns]
      · exact absurd h (by simp)

theorem getIds_append : ∀ {l₁ l₂ : List JDict} {ids₁ ids₂ : List Int},
    getIds l₁ = .ok ids₁ → getIds l₂ = .ok ids₂ → getIds (l₁ ++ l₂) = .ok (ids₁ ++ ids₂) := by
  intro l₁
  induction l₁ with
  | nil =>
      intro l₂ ids₁ ids₂ h₁ h₂
      simp only [getIds, Except.ok.injEq] at h₁
      simpa [← h₁] using h₂
  | cons d ds ih =>
      intro l₂ ids₁ ids₂ h₁ h₂
      rw [getIds] at h₁
      split at h₁
      · exact absurd h₁ (by simp)
      · rename_i n heq
        split at h₁
        · exact absurd h₁ (by simp)
        · rename_i ns hns
          simp only [Except.ok.injEq] at h₁
          subst h₁
          rw [List.cons_append, getIds, heq, ih hns h₂]
          rfl
      · exact absurd h₁ (by simp)


theorem le_foldl_max : ∀ (l : List Int) (n : Int), ∀ i ∈ n :: l, i ≤ l.foldl max n := by
  intro l
  induction l with
  | nil =>
      intro n i hi
      simp only [List.mem_singleton] at hi
      simp [hi]
  | cons a l ih =>
      intro n i hi
      simp only [List.foldl_cons]
      have hbase := ih (max n a)
      rcases List.mem_cons.mp hi with rfl | h
      · exact le_trans (le_max_left i a) (hbase _ (List.mem_cons_self _ _))
      · rcases List.mem_cons.mp h with rfl | h2
        · exact le_trans (le_max_right n i) (hbase _ (List.mem_cons_self _ _))
        · exact hbase i (List.mem_cons_of_mem _ h2)

theorem foldl_max_le : ∀ (l : List Int) (n m : Int), n ≤ m → (∀ i ∈ l, i ≤ m) →
    l.foldl max n ≤ m := by
  intro l
  induction l with
  | nil => intro n m hn _; simpa using hn
  | cons a l ih =>
      intro n m hn h
      simp only [List.foldl_cons]
      exact ih _ _ (max_le hn (h a (List.mem_cons_self _ _)))
        (fun i hi => h i (List.mem_cons_of_mem _ hi))

/-! ## Claim C3: `get_next_id` -/

/-- C3: `get_next_id` returns 1 on the empty collection; on a non-empty
collection whose ids are `ids` with maximum `m` (an id that bounds all ids),
it returns `m + 1`. -/
theorem get_next_id_max_plus_one :
    get_next_id [] = .ok 1 ∧
    ∀ (quotes : List JDict) (ids : List Int) (m : Int),
      getIds quotes = .ok ids → m ∈ ids → (∀ i ∈ ids, i ≤ m) →
      get_next_id quotes = .ok (m + 1) := by
  refine ⟨rfl, ?_⟩
  intro quotes ids m hids hm hmax
  have hne : quotes ≠ [] := by
    intro h
    subst h
    simp only [getIds, Except.ok.injEq] at hids
    subst hids
    exact absurd hm (List.not_mem_nil m)
  have hempty : quotes.isEmpty = false := by
    cases quotes with
    | nil => exact absurd rfl hne
    | cons q qs => rfl
  rw [get_next_id, if_neg (by simp [hempty]), hids]
  cases ids with
  | nil => exact absurd hm (List.not_mem_nil m)
  | cons n ns =>
      have h1 : ns.foldl max n ≤ m :=
        foldl_max_le ns n m (hmax n (List.mem_cons_self _ _))
          (fun i hi => hmax i (List.mem_cons_of_mem _ hi))
      have h2 : m ≤ ns.foldl max n := le_foldl_max ns n m hm
      simp [le_antisymm h1 h2]

/-- Witness for C3: the spec's example `[/x7b id:3 /x7d, /x7b id:7 /x7d] ↦ 8`. -/
theorem get_next_id_max_plus_one_witness :
    get_next_id [[("id", Json.int 3)], [("id", Json.int 7)]] = .ok 8 :=
  get_next_id_max_plus_one.2 [[("id", Json.int 3)], [("id", Json.int 7)]] [3, 7] 7
    (by rfl) (by simp) (by decide)

/-! ## Claim C4: `add` assigns a fresh id -/

/-- C4: whatever the prior collection (with ids `ids`) and whatever the
prompted inputs, `add` appends a quote whose id is strictly greater than every
prior id, so uniqueness of ids is preserved. -/
theorem add_assigns_fresh_id :
    ∀ (ins : AddInputs) (quotes : List JDict) (ids : List Int) (nid : Int),
      getIds quotes = .ok ids → get_next_id quotes = .ok nid →
      add_core ins quotes = .ok (quotes ++ [newQuoteDict ins nid], nid) ∧
      (∀ i ∈ ids, i < nid) ∧
      getIds (quotes ++ [newQuoteDict ins nid]) = .ok (ids ++ [nid]) ∧
      (ids.Nodup → (ids ++ [nid]).Nodup) := by
  intro ins quotes ids nid hids hnext
  have hgt : ∀ i ∈ ids, i < nid := by
    rw [get_next_id] at hnext
    by_cases hq : quotes.isEmpty = true
    · have hqnil : quotes = [] := by
        cases quotes with
        | nil => rfl
        | cons q qs => simp at hq
      subst hqnil
      simp only [getIds, Except.ok.injEq] at hids
      subst hids
      intro i hi
      exact absurd hi (List.not_mem_nil i)
    · rw [if_neg hq, hids] at hnext
      cases ids with
      | nil =>
          intro i hi
          exact absurd hi (List.not_mem_nil i)
      | cons n ns =>
          have hnext' : (Except.ok (ns.foldl max n + 1) : Except String Int) = .ok nid := hnext
          simp only [Except.ok.injEq] at hnext'
          intro i hi
          have := le_foldl_max ns n i hi
          omega
  have hnew : getIds [newQuoteDict ins nid] = .ok [nid] := by rfl
  refine ⟨by rw [add_core, hnext], hgt, getIds_append hids hnew, ?_⟩
  intro hnd
  rw [List.nodup_append]
  refine ⟨hnd, List.nodup_singleton _, ?_⟩
  intro i hi hmem
  rw [List.mem_singleton] at hmem
  subst hmem
  exact absurd (hgt i hi) (lt_irrefl i)

/-- Witness for C4: adding to `[/x7b id:3 /x7d, /x7b id:7 /x7d]` assigns id 8
and keeps ids unique. -/
theorem add_assigns_fresh_id_witness :
    add_core ⟨"a", "b", "c", "d", "e"⟩ [[("id", Json.int 3)], [("id", Json.int 7)]] =
      .ok ([[("id", Json.int 3)], [("id", Json.int 7)],
            newQuoteDict ⟨"a", "b", "c", "d", "e"⟩ 8], 8) ∧
    (∀ i ∈ ([3, 7] : List Int), i < 8) ∧
    getIds [[("id", Json.int 3)], [("id", Json.int 7)], newQuoteDict ⟨"a", "b", "c", "d", "e"⟩ 8] =
      .ok [3, 7, 8] ∧
    (([3, 7] : List Int).Nodup → ([3, 7, 8] : List Int).Nodup) :=
  add_assigns_fresh_id ⟨"a", "b", "c", "d", "e"⟩ [[("id", Json.int 3)], [("id", Json.int 7)]]
    [3, 7] 8 (by rfl) (by rfl)

/-! ## Claim C5: answer comparison -/

/-- C5: in any round, the answer counts as correct (and the score is
incremented by the round, via the returned flag) exactly when the input and
the expected answer agree after trimming surrounding whitespace and folding
case. -/
theorem answer_checked_trim_lower :
    ∀ (q : JDict) (mode : Nat) (input answer : String) (lines : List String) (b : Bool),
      dictGet q (answerField mode) = some (Json.str answer) →
      playRound q mode input = .ok (lines, b) →
      (b = true ↔ pyLower (pyStrip input) = pyLower (pyStrip answer)) := by
  intro q mode input answer lines b hans hrun
  rw [playRound] at hrun
  cases hl : getItem q "latin_text" with
  | error e =>
      rw [hl] at hrun
      exact absurd hrun (by simp)
  | ok latin =>
      rw [hl] at hrun
      rw [getItem, hans] at hrun
      have hrun' :
          (Except.ok ([questionText mode latin, "\nYour answer: ",
              if stripLower input == stripLower answer then
                "✅ Correct! The answer is: " ++ answer
              else "❌ Incorrect. The correct answer was: " ++ answer],
            stripLower input == stripLower answer) :
            Except String (List String × Bool)) = .ok (lines, b) := hrun
      simp only [Except.ok.injEq, Prod.mk.injEq] at hrun'
      rw [← hrun'.2]
      simp [stripLower, beq_iff_eq]

/-- Witness for C5: the spec's example, `" Rome "` matches `"rome"`. -/
theorem answer_checked_trim_lower_witness :
    (true = true ↔ pyLower (pyStrip " Rome ") = pyLower (pyStrip "rome")) :=
  answer_checked_trim_lower romeQuote 0 " Rome " "rome"
    ["Translate this quote to English:\n\n> Rōma", "\nYour answer: ",
     "✅ Correct! The answer is: rome"] true (by rfl) (by rfl)

/-! ## Claim C8: `play` on the empty collection -/

/-- C8: on an empty collection, `play` prints the "no quotes" message and
ends with a graceful `typer.Exit` (zero rounds are played; no exception
escapes). -/
theorem play_empty_graceful :
    ∀ (rounds : Int) (sampleR modeR : Nat → Nat) (inputs : Nat → String),
      play [] rounds sampleR modeR inputs = .ok (.emptyExit [noQuotesMsg]) := by
  intro rounds sampleR modeR inputs
  rfl

/-! ## Claim C10: `play --rounds 0` -/

/-- C10: with `--rounds 0` on a non-empty collection, `play` succeeds, asks
zero questions, and prints only the welcome line, the Game Over banner and a
final score of `0/0`. -/
theorem play_zero_rounds :
    ∀ (quotes : List JDict) (sampleR modeR : Nat → Nat) (inputs : Nat → String),
      quotes ≠ [] →
      play quotes 0 sampleR modeR inputs =
        .ok (.finished [welcomeMsg, gameOverMsg, "Your final score: 0/0"] 0 0 []) := by
  intro quotes sampleR modeR inputs hne
  cases quotes with
  | nil => exact absurd rfl hne
  | cons q qs =>
      have hmin : min (0 : Int) (((q :: qs).length : Nat) : Int) = 0 :=
        min_eq_left (Int.natCast_nonneg _)
      rw [play]
      simp only [List.isEmpty_cons, Bool.false_eq_true, if_false, hmin]
      have hsample : sample (q :: qs) 0 sampleR = .ok [] := by
        rw [sample, if_neg]
        · rfl
        · push_neg
          exact ⟨le_refl 0, Int.natCast_nonneg _⟩
      rw [hsample]
      rfl

/-- Witness for C10 at a concrete one-quote collection. -/
theorem play_zero_rounds_witness :
    play [veniQuote] 0 (fun _ => 0) (fun _ => 0) (fun _ => "") =
      .ok (.finished [welcomeMsg, gameOverMsg, "Your final score: 0/0"] 0 0 []) :=
  play_zero_rounds [veniQuote] (fun _ => 0) (fun _ => 0) (fun _ => "") (by simp)

/-! ## Claims C1 and C2: the quiz session -/

theorem cons_eraseIdx_perm : ∀ (l : List α) (i : Fin l.length),
    (l.get i :: l.eraseIdx i).Perm l
  | a :: l, ⟨0, _⟩ => by simp
  | a :: l, ⟨i + 1, h⟩ => by
      have ih := cons_eraseIdx_perm l ⟨i, by simpa using h⟩
      simpa using ((List.Perm.swap a _ _).trans (ih.cons a)).symm.symm

theorem subperm_cons_of_subperm {l₁ l₂ : List α} (a : α) (h : List.Subperm l₁ l₂) :
    List.Subperm (a :: l₁) (a :: l₂) := by
  obtain ⟨w, hp, hs⟩ := h
  exact ⟨a :: w, hp.cons a, hs.cons₂ a⟩

theorem sampleAux_subperm : ∀ (n : Nat) (pool : List α) (r : Nat → Nat) (step : Nat),
    List.Subperm (sampleAux pool n r step) pool := by
  intro n
  induction n with
  | zero => intro pool r step; cases pool <;> exact List.nil_subperm
  | succ m ih =>
      intro pool r step
      cases pool with
      | nil => exact List.nil_subperm
      | cons p ps =>
          rw [sampleAux]
          refine List.Subperm.trans ?_
            (cons_eraseIdx_perm (p :: ps)
              ⟨r step % (p :: ps).length, Nat.mod_lt _ (by simp)⟩).subperm
          exact subperm_cons_of_subperm _ (ih _ r (step + 1))

theorem sampleAux_length : ∀ (n : Nat) (pool : List α) (r : Nat → Nat) (step : Nat),
    n ≤ pool.length → (sampleAux pool n r step).length = n := by
  intro n
  induction n with
  | zero => intro pool r step _; cases pool <;> rfl
  | succ m ih =>
      intro pool r step hle
      cases pool with
      | nil => simp at hle
      | cons p ps =>
          have hlt : r step % (p :: ps).length < (p :: ps).length := Nat.mod_lt _ (by simp)
          have herase := List.length_eraseIdx_add_one hlt
          rw [sampleAux, List.length_cons, ih _ r (step + 1) (by omega)]

/-- `random.sample` succeeds exactly when `0 ≤ k ≤ n`, and then returns `k`
elements drawn without replacement. -/
theorem sample_spec (population : List α) (k : Int) (r : Nat → Nat)
    (h0 : 0 ≤ k) (hk : k ≤ (population.length : Int)) :
    ∃ chosen, sample population k r = .ok chosen ∧
      (chosen.length : Int) = k ∧ List.Subperm chosen population := by
  refine ⟨sampleAux population k.toNat r 0, ?_, ?_, sampleAux_subperm _ _ _ _⟩
  · rw [sample, if_neg]
    push_neg
    exact ⟨h0, hk⟩
  · have : k.toNat ≤ population.length := by omega
    rw [sampleAux_length _ _ _ _ this]
    omega

theorem playRound_ok {q : JDict} (hwf : wfPlay q) (mode : Nat) (input : String) :
    ∃ lines b, playRound q mode input = .ok (lines, b) := by
  obtain ⟨hlatin, hen, hau, hwo⟩ := hwf
  obtain ⟨lv, hlv⟩ := Option.isSome_iff_exists.mp hlatin
  have hans : ∃ s, dictGet q (answerField mode) = some (Json.str s) := by
    rw [answerField]
    split_ifs
    · exact hen
    · exact hau
    · exact hwo
  obtain ⟨ans, hans⟩ := hans
  have h1 : getItem q "latin_text" = .ok lv := by rw [getItem, hlv]
  have h2 : getItem q (answerField mode) = .ok (.str ans) := by rw [getItem, hans]
  refine ⟨[questionText mode lv, "\nYour answer: ",
      if stripLower input == stripLower ans then "✅ Correct! The answer is: " ++ ans
      else "❌ Incorrect. The correct answer was: " ++ ans],
    stripLower input == stripLower ans, ?_⟩
  rw [playRound, h1, h2]
  rfl

theorem runRounds_ok (numRounds : Int) (modeR : Nat → Nat) (inputs : Nat → String) :
    ∀ (gq : List JDict) (i : Nat), (∀ q ∈ gq, wfPlay q) →
      ∃ out sc, runRounds numRounds modeR inputs gq i = .ok (out, sc) := by
  intro gq
  induction gq with
  | nil => intro i _; exact ⟨[], 0, rfl⟩
  | cons q qs ih =>
      intro i hwf
      obtain ⟨lines, b, hq⟩ := playRound_ok (hwf q (List.mem_cons_self _ _)) (modeR i % 3) (inputs i)
      obtain ⟨out, sc, hqs⟩ := ih (i + 1) (fun d hd => hwf d (List.mem_cons_of_mem _ hd))
      refine ⟨("\n--- Round " ++ natToStr (i + 1) ++ " of " ++ intToStr numRounds ++ " ---")
          :: lines ++ out,
        (if b then 1 else 0) + sc, ?_⟩
      rw [runRounds, hq, hqs]

/-- Shared backbone for C1 and C2: on a non-empty well-formed collection and
non-negative `rounds`, `play` completes a session of exactly
`min rounds (len quotes)` questions, drawn without replacement. -/
theorem play_spec (quotes : List JDict) (rounds : Int) (sampleR modeR : Nat → Nat)
    (inputs : Nat → String) (hne : quotes ≠ []) (hwf : ∀ q ∈ quotes, wfPlay q)
    (h0 : 0 ≤ rounds) :
    ∃ out score asked,
      play quotes rounds sampleR modeR inputs =
        .ok (.finished out score (min rounds (quotes.length : Int)) asked) ∧
      (asked.length : Int) = min rounds (quotes.length : Int) ∧
      List.Subperm asked quotes := by
  have hempty : quotes.isEmpty = false := by
    cases quotes with
    | nil => exact absurd rfl hne
    | cons q qs => rfl
  obtain ⟨asked, hsample, hlen, hsub⟩ :=
    sample_spec quotes (min rounds (quotes.length : Int)) sampleR
      (le_min h0 (Int.natCast_nonneg _)) (min_le_right _ _)
  obtain ⟨out, sc, hrounds⟩ :=
    runRounds_ok (min rounds (quotes.length : Int)) modeR inputs asked 0
      (fun q hq => hwf q (hsub.subset hq))
  refine ⟨welcomeMsg :: out ++
      [gameOverMsg, "Your final score: " ++ natToStr sc ++ "/" ++
        intToStr (min rounds (quotes.length : Int))],
    sc, asked, ?_, hlen, hsub⟩
  simp [play, hempty, hsample, hrounds]

/-- C1 (amended): for a non-empty collection of `k` quotes and any requested
`rounds = r ≥ 0`, the session asks exactly `min(r, k)` questions, drawn
without replacement (so distinct whenever the collection has no duplicate
quotes).  For `r < 0` the code instead raises `ValueError` (see the
counterexample). -/
theorem play_asks_min_distinct :
    ∀ (quotes : List JDict) (rounds : Int) (sampleR modeR : Nat → Nat) (inputs : Nat → String),
      quotes ≠ [] → (∀ q ∈ quotes, wfPlay q) → 0 ≤ rounds →
      ∃ out score asked,
        play quotes rounds sampleR modeR inputs =
          .ok (.finished out score (min rounds (quotes.length : Int)) asked) ∧
        (asked.length : Int) = min rounds (quotes.length : Int) ∧
        List.Subperm asked quotes ∧
        (quotes.Nodup → asked.Nodup) := by
  intro quotes rounds sampleR modeR inputs hne hwf h0
  obtain ⟨out, sc, asked, hplay, hlen, hsub⟩ :=
    play_spec quotes rounds sampleR modeR inputs hne hwf h0
  refine ⟨out, sc, asked, hplay, hlen, hsub, ?_⟩
  intro hnd
  obtain ⟨w, hp, hs⟩ := hsub
  exact hp.nodup_iff.mp (hs.nodup hnd)

/-- The claim of C1 as frozen is false for negative `rounds`: with one quote
and `--rounds -1`, the session would have to ask `min(-1, 1) = -1` questions;
instead `random.sample` raises `ValueError` and no question is asked. -/
theorem play_asks_min_distinct_counterexample :
    play [veniQuote] (-1) (fun _ => 0) (fun _ => 0) (fun _ => "") =
      .error "Sample larger than population or is negative" := by
  rfl

/-- Witness for C1 at a concrete input: two quotes, five requested rounds. -/
theorem play_asks_min_distinct_witness :
    ∃ out score asked,
      play [veniQuote, aleaQuote] 5 (fun _ => 0) (fun _ => 0) (fun _ => "") =
        .ok (.finished out score (min 5 (([veniQuote, aleaQuote] : List JDict).length : Int)) asked) ∧
      (asked.length : Int) = min 5 (([veniQuote, aleaQuote] : List JDict).length : Int) ∧
      List.Subperm asked [veniQuote, aleaQuote] ∧
      (([veniQuote, aleaQuote] : List JDict).Nodup → asked.Nodup) :=
  play_asks_min_distinct [veniQuote, aleaQuote] 5 (fun _ => 0) (fun _ => 0) (fun _ => "")
    (by simp)
    (by
      intro q hq
      rcases List.mem_cons.mp hq with rfl | hq
      · exact ⟨by rfl, ⟨"I came", by rfl⟩, ⟨"Caesar", by rfl⟩, ⟨"De Bello Gallico", by rfl⟩⟩
      · rcases List.mem_cons.mp hq with rfl | hq
        · exact ⟨by rfl, ⟨"The die is cast", by rfl⟩, ⟨"Caesar", by rfl⟩, ⟨"Life", by rfl⟩⟩
        · exact absurd hq (List.not_mem_nil q))
    (by omega)

/-- C2 (amended): `play` on a non-empty collection never fails for any
`rounds ≥ 0` — including 0 and arbitrarily huge values, which are silently
clamped by `min` with the collection size — but for `rounds < 0`
`random.sample` raises `ValueError` (see the counterexample). -/
theorem play_rounds_clamped_no_error :
    ∀ (quotes : List JDict) (rounds : Int) (sampleR modeR : Nat → Nat) (inputs : Nat → String),
      quotes ≠ [] → (∀ q ∈ quotes, wfPlay q) → 0 ≤ rounds →
      ∃ out score asked,
        play quotes rounds sampleR modeR inputs =
          .ok (.finished out score (min rounds (quotes.length : Int)) asked) := by
  intro quotes rounds sampleR modeR inputs hne hwf h0
  obtain ⟨out, sc, asked, hplay, -, -⟩ :=
    play_spec quotes rounds sampleR modeR inputs hne hwf h0
  exact ⟨out, sc, asked, hplay⟩

/-- The claim of C2 as frozen ("no error is raised for rounds <= 0") is
false: with two quotes and `--rounds -5`, `random.sample(quotes, -5)` raises
`ValueError`, which propagates to the user. -/
theorem play_rounds_clamped_no_error_counterexample :
    play [veniQuote, aleaQuote] (-5) (fun _ => 0) (fun _ => 0) (fun _ => "") =
      .error "Sample larger than population or is negative" := by
  rfl

/-- Witness for C2 at a concrete input: one quote, huge requested rounds. -/
theorem play_rounds_clamped_no_error_witness :
    ∃ out score asked,
      play [romeQuote] 1000000 (fun _ => 0) (fun _ => 0) (fun _ => "") =
        .ok (.finished out score (min 1000000 (([romeQuote] : List JDict).length : Int)) asked) :=
  play_rounds_clamped_no_error [romeQuote] 1000000 (fun _ => 0) (fun _ => 0) (fun _ => "")
    (by simp)
    (by
      intro q hq
      rcases List.mem_cons.mp hq with rfl | hq
      · exact ⟨by rfl, ⟨"rome", by rfl⟩, ⟨"Caesar", by rfl⟩, ⟨"De Bello Gallico", by rfl⟩⟩
      · exact absurd hq (List.not_mem_nil q))
    (by omega)

/-! ## Claim C9: `list` -/

theorem string_append_ne_of_take (p q : String) (h3p : 3 ≤ p.data.length)
    (h3q : 3 ≤ q.data.length) (hne : p.data.take 3 ≠ q.data.take 3) :
    ∀ x y : String, p ++ x ≠ q ++ y := by
  intro x y h
  have hd : (p ++ x).data = (q ++ y).data := congrArg String.data h
  rw [String.data_append, String.data_append] at hd
  have h3 := congrArg (List.take 3) hd
  rw [List.take_append_of_le_length h3p, List.take_append_of_le_length h3q] at h3
  exact hne h3

theorem quoteLines_ok {d : JDict} {idv : Json} (hv : dictGet d "id" = some idv) :
    quoteLines d = .ok
      (["\nID: " ++ pyStr idv,
        "  Latin: " ++ getDefault d "latin_text" "N/A",
        "  English: " ++ getDefault d "english_translation" "N/A",
        "  Author: " ++ getDefault d "author" "N/A",
        "  Work: " ++ getDefault d "work" "N/A"]
       ++ (match dictGet d "notes" with
           | some v => if truthy v then ["  Notes: " ++ pyStr v] else []
           | none => [])) := by
  rw [quoteLines, getItem, hv]

theorem listBlocks_ok : ∀ (quotes : List JDict),
    (∀ d ∈ quotes, (dictGet d "id").isSome = true) →
    ∃ blocks, listBlocks quotes = .ok blocks ∧
      ∀ d ∈ quotes, ∃ ls, quoteLines d = .ok ls ∧ ∀ x ∈ ls, x ∈ blocks := by
  intro quotes
  induction quotes with
  | nil => intro _; exact ⟨[], rfl, by simp⟩
  | cons d ds ih =>
      intro hid
      obtain ⟨idv, hidv⟩ := Option.isSome_iff_exists.mp (hid d (List.mem_cons_self _ _))
      obtain ⟨rest, hrest, hmem⟩ := ih (fun e he => hid e (List.mem_cons_of_mem _ he))
      have hd := quoteLines_ok hidv
      refine ⟨(["\nID: " ++ pyStr idv,
          "  Latin: " ++ getDefault d "latin_text" "N/A",
          "  English: " ++ getDefault d "english_translation" "N/A",
          "  Author: " ++ getDefault d "author" "N/A",
          "  Work: " ++ getDefault d "work" "N/A"]
         ++ (match dictGet d "notes" with
             | some v => if truthy v then ["  Notes: " ++ pyStr v] else []
             | none => [])) ++ rest, ?_, ?_⟩
      · rw [listBlocks, hd, hrest]
      · intro e he
        rcases List.mem_cons.mp he with rfl | he
        · exact ⟨_, hd, fun x hx => List.mem_append_left _ hx⟩
        · obtain ⟨ls, hls, hx⟩ := hmem e he
          exact ⟨ls, hls, fun x hxx => List.mem_append_right _ (hx x hxx)⟩

/-- C9 (amended): for every stored collection all of whose quotes carry the
`id` field, `list` succeeds: it prints every quote's block, substitutes
`"N/A"` for each missing text field, and emits a notes line exactly when
`notes` is present and truthy (so none when it is empty or absent).  A quote
with `id` itself missing instead raises `KeyError` (see the counterexample). -/
theorem list_prints_all_with_fallbacks (quotes : List JDict)
    (hid : ∀ d ∈ quotes, (dictGet d "id").isSome = true) :
    ∃ lines, list_quotes quotes = .ok lines ∧
      ∀ d ∈ quotes, ∃ ls, quoteLines d = .ok ls ∧ (∀ x ∈ ls, x ∈ lines) ∧
        (dictGet d "latin_text" = none → "  Latin: N/A" ∈ ls) ∧
        (dictGet d "english_translation" = none → "  English: N/A" ∈ ls) ∧
        (dictGet d "author" = none → "  Author: N/A" ∈ ls) ∧
        (dictGet d "work" = none → "  Work: N/A" ∈ ls) ∧
        (∀ v, dictGet d "notes" = some v → truthy v = true → "  Notes: " ++ pyStr v ∈ ls) ∧
        ((dictGet d "notes" = none ∨ (∃ v, dictGet d "notes" = some v ∧ truthy v = false)) →
          ∀ s, ("  Notes: " ++ s) ∉ ls) := by
  obtain ⟨blocks, hblocks, hper⟩ := listBlocks_ok quotes hid
  have hmain : ∀ d ∈ quotes, ∃ ls, quoteLines d = .ok ls ∧ (∀ x ∈ ls, x ∈ blocks) ∧
      (dictGet d "latin_text" = none → "  Latin: N/A" ∈ ls) ∧
      (dictGet d "english_translation" = none → "  English: N/A" ∈ ls) ∧
      (dictGet d "author" = none → "  Author: N/A" ∈ ls) ∧
      (dictGet d "work" = none → "  Work: N/A" ∈ ls) ∧
      (∀ v, dictGet d "notes" = some v → truthy v = true → "  Notes: " ++ pyStr v ∈ ls) ∧
      ((dictGet d "notes" = none ∨ (∃ v, dictGet d "notes" = some v ∧ truthy v = false)) →
        ∀ s, ("  Notes: " ++ s) ∉ ls) := by
    intro d hd
    obtain ⟨idv, hidv⟩ := Option.isSome_iff_exists.mp (hid d hd)
    obtain ⟨ls, hls, hsub⟩ := hper d hd
    have hls2 := quoteLines_ok hidv
    rw [hls] at hls2
    have hlseq : ls = _ := (Except.ok.injEq _ _).mp hls2
    refine ⟨ls, hls, hsub, ?_, ?_, ?_, ?_, ?_, ?_⟩
    · intro h
      have hna : getDefault d "latin_text" "N/A" = "N/A" := by rw [getDefault, h]
      rw [hlseq, hna]
      simp
    · intro h
      have hna : getDefault d "english_translation" "N/A" = "N/A" := by rw [getDefault, h]
      rw [hlseq, hna]
      simp
    · intro h
      have hna : getDefault d "author" "N/A" = "N/A" := by rw [getDefault, h]
      rw [hlseq, hna]
      simp
    · intro h
      have hna : getDefault d "work" "N/A" = "N/A" := by rw [getDefault, h]
      rw [hlseq, hna]
      simp
    · intro v hv htr
      rw [hlseq, hv]
      simp [htr]
    · intro hno s hmem
      have hnotes : (match dictGet d "notes" with
          | some v => if truthy v then ["  Notes: " ++ pyStr v] else []
          | none => ([] : List String)) = [] := by
        rcases hno with h | ⟨v, hv, htr⟩
        · rw [h]
        · simp [hv, htr]
      rw [hlseq, hnotes, List.append_nil] at hmem
      have hid3 : ¬("  Notes: " ++ s = "\nID: " ++ pyStr idv) :=
        string_append_ne_of_take _ _ (by decide) (by decide) (by decide) _ _
      have hla : ¬("  Notes: " ++ s = "  Latin: " ++ getDefault d "latin_text" "N/A") :=
        string_append_ne_of_take _ _ (by decide) (by decide) (by decide) _ _
      have hen : ¬("  Notes: " ++ s = "  English: " ++ getDefault d "english_translation" "N/A") :=
        string_append_ne_of_take _ _ (by decide) (by decide) (by decide) _ _
      have hau : ¬("  Notes: " ++ s = "  Author: " ++ getDefault d "author" "N/A") :=
        string_append_ne_of_take _ _ (by decide) (by decide) (by decide) _ _
      have hwo : ¬("  Notes: " ++ s = "  Work: " ++ getDefault d "work" "N/A") :=
        string_append_ne_of_take _ _ (by decide) (by decide) (by decide) _ _
      simp only [List.mem_cons, List.not_mem_nil, or_false] at hmem
      rcases hmem with h | h | h | h | h
      exacts [hid3 h, hla h, hen h, hau h, hwo h]
  cases quotes with
  | nil => exact ⟨["📚 The database is empty."], rfl, by simp⟩
  | cons d ds =>
      refine ⟨"--- 📖 All Quotes in Database ---" :: blocks ++ ["------------------------------"],
        ?_, ?_⟩
      · rw [list_quotes, if_neg (by simp), hblocks]
      · intro e he
        obtain ⟨ls, hls, hsub, rest⟩ := hmain e he
        exact ⟨ls, hls,
          fun x hx => List.mem_cons_of_mem _ (List.mem_append_left _ (hsub x hx)), rest⟩

/-- The claim of C9 as frozen is false when the missing field is `id`:
`quote['id']` raises `KeyError`, so `list` does fail on a stored quote
lacking `id`. -/
theorem list_prints_all_with_fallbacks_counterexample :
    list_quotes [[("latin_text", Json.str "Veni")]] = .error "KeyError: id" := by
  rfl

/-- Witness for C9 at a quote with `id` present, all text fields missing and
empty notes. -/
theorem list_prints_all_with_fallbacks_witness :
    ∃ lines, list_quotes [[("id", Json.int 1), ("notes", Json.str "")]] = .ok lines ∧
      ∀ d ∈ ([[("id", Json.int 1), ("notes", Json.str "")]] : List JDict),
        ∃ ls, quoteLines d = .ok ls ∧ (∀ x ∈ ls, x ∈ lines) ∧
        (dictGet d "latin_text" = none → "  Latin: N/A" ∈ ls) ∧
        (dictGet d "english_translation" = none → "  English: N/A" ∈ ls) ∧
        (dictGet d "author" = none → "  Author: N/A" ∈ ls) ∧
        (dictGet d "work" = none → "  Work: N/A" ∈ ls) ∧
        (∀ v, dictGet d "notes" = some v → truthy v = true → "  Notes: " ++ pyStr v ∈ ls) ∧
        ((dictGet d "notes" = none ∨ (∃ v, dictGet d "notes" = some v ∧ truthy v = false)) →
          ∀ s, ("  Notes: " ++ s) ∉ ls) :=
  list_prints_all_with_fallbacks [[("id", Json.int 1), ("notes", Json.str "")]]
    (by intro d hd; rcases List.mem_cons.mp hd with rfl | hd
        · rfl
        · exact absurd hd (List.not_mem_nil d))

/-! ## Claims C6 and C7: persistence -/

theorem WsList_nil : WsList ([] : List Char) := by
  intro c hc
  exact absurd hc (List.not_mem_nil c)

theorem WsList_indent (n : Nat) : WsList (indentChars n) := by
  intro c hc
  rw [indentChars] at hc
  rw [List.eq_of_mem_replicate hc]
  rfl

theorem WsList_cons {c : Char} (h : jsonWs c = true) {ws : List Char} (hws : WsList ws) :
    WsList (c :: ws) := by
  intro d hd
  rcases List.mem_cons.mp hd with rfl | hd
  · exact h
  · exact hws d hd

theorem WsList_newline_indent (n : Nat) : WsList ('\n' :: indentChars n) :=
  WsList_cons (by rfl) (WsList_indent n)

theorem skipWs_append {ws : List Char} (hws : WsList ws) (cs : List Char) :
    skipWs (ws ++ cs) = skipWs cs := by
  induction ws with
  | nil => rfl
  | cons c w ih =>
      have hc : jsonWs c = true := hws c (List.mem_cons_self _ _)
      have hw : WsList w := fun d hd => hws d (List.mem_cons_of_mem _ hd)
      rw [List.cons_append, skipWs, if_pos hc, ih hw]

theorem skipWs_cons_not {c : Char} (h : jsonWs c = false) (cs : List Char) :
    skipWs (c :: cs) = c :: cs := by
  rw [skipWs, h]
  rfl

theorem hexVal?_hexChar {d : Nat} (h : d < 16) : hexVal? (hexChar d) = some d := by
  interval_cases d <;> rfl

theorem parseStr_unicode (fuel : Nat) (d1 d2 : Char) (a b : Nat) (X : List Char)
    (h1 : hexVal? d1 = some a) (h2 : hexVal? d2 = some b) :
    parseStr (fuel + 1) ('\\' :: 'u' :: '0' :: '0' :: d1 :: d2 :: X) =
      (match parseStr fuel X with
       | .error msg => .error msg
       | .ok (s, r) => .ok (Char.ofNat (4096 * 0 + 256 * 0 + 16 * a + b) :: s, r)) := by
  have h0 : parseStr (fuel + 1) ('\\' :: 'u' :: '0' :: '0' :: d1 :: d2 :: X) =
      (match hexVal? '0', hexVal? '0', hexVal? d1, hexVal? d2 with
       | some a', some b', some c4, some d4 =>
           match parseStr fuel X with
           | .error msg => .error msg
           | .ok (s, r) => .ok (Char.ofNat (4096 * a' + 256 * b' + 16 * c4 + d4) :: s, r)
       | _, _, _, _ => .error "Invalid hex escape") := rfl
  rw [h0, h1, h2]
  rfl

theorem parseStr_encode : ∀ (cs : List Char) (fuel : Nat) (rest : List Char),
    cs.length + 1 ≤ fuel →
    parseStr fuel (encodeChars cs ++ ('"' :: rest)) = .ok (cs, rest) := by
  intro cs
  induction cs with
  | nil =>
      intro fuel rest hfuel
      obtain ⟨f, rfl⟩ : ∃ f, fuel = f + 1 := ⟨fuel - 1, by omega⟩
      simp only [encodeChars, List.map_nil, List.flatten_nil, List.nil_append]
      rfl
  | cons c cs ih =>
      intro fuel rest hfuel
      obtain ⟨f, rfl⟩ : ∃ f, fuel = f + 1 := ⟨fuel - 1, by omega⟩
      have hf : cs.length + 1 ≤ f := by
        simp only [List.length_cons] at hfuel
        omega
      have henc : encodeChars (c :: cs) ++ ('"' :: rest) =
          escChar c ++ (encodeChars cs ++ ('"' :: rest)) := by
        simp [encodeChars]
      rw [henc]
      by_cases h1 : c = '"'
      · subst h1
        have hstep : ∀ X, parseStr (f + 1) ('\\' :: '"' :: X) =
            (match parseStr f X with
             | .error msg => .error msg
             | .ok (s, r) => .ok ('"' :: s, r)) := fun X => rfl
        rw [show escChar '"' = ['\\', '"'] from rfl, List.cons_append, List.cons_append,
          List.nil_append, hstep, ih f rest hf]
      · by_cases h2 : c = '\\'
        · subst h2
          have hstep : ∀ X, parseStr (f + 1) ('\\' :: '\\' :: X) =
              (match parseStr f X with
               | .error msg => .error msg
               | .ok (s, r) => .ok ('\\' :: s, r)) := fun X => rfl
          rw [show escChar '\\' = ['\\', '\\'] from rfl, List.cons_append, List.cons_append,
            List.nil_append, hstep, ih f rest hf]
        · by_cases h3 : c = Char.ofNat 8
          · subst h3
            have hstep : ∀ X, parseStr (f + 1) ('\\' :: 'b' :: X) =
                (match parseStr f X with
                 | .error msg => .error msg
                 | .ok (s, r) => .ok (Char.ofNat 8 :: s, r)) := fun X => rfl
            rw [show escChar (Char.ofNat 8) = ['\\', 'b'] from rfl, List.cons_append,
              List.cons_append, List.nil_append, hstep, ih f rest hf]
          · by_cases h4 : c = Char.ofNat 9
            · subst h4
              have hstep : ∀ X, parseStr (f + 1) ('\\' :: 't' :: X) =
                  (match parseStr f X with
                   | .error msg => .error msg
                   | .ok (s, r) => .ok (Char.ofNat 9 :: s, r)) := fun X => rfl
              rw [show escChar (Char.ofNat 9) = ['\\', 't'] from rfl, List.cons_append,
                List.cons_append, List.nil_append, hstep, ih f rest hf]
            · by_cases h5 : c = Char.ofNat 10
              · subst h5
                have hstep : ∀ X, parseStr (f + 1) ('\\' :: 'n' :: X) =
                    (match parseStr f X with
                     | .error msg => .error msg
                     | .ok (s, r) => .ok (Char.ofNat 10 :: s, r)) := fun X => rfl
                rw [show escChar (Char.ofNat 10) = ['\\', 'n'] from rfl, List.cons_append,
                  List.cons_append, List.nil_append, hstep, ih f rest hf]
              · by_cases h6 : c = Char.ofNat 12
                · subst h6
                  have hstep : ∀ X, parseStr (f + 1) ('\\' :: 'f' :: X) =
                      (match parseStr f X with
                       | .error msg => .error msg
                       | .ok (s, r) => .ok (Char.ofNat 12 :: s, r)) := fun X => rfl
                  rw [show escChar (Char.ofNat 12) = ['\\', 'f'] from rfl, List.cons_append,
                    List.cons_append, List.nil_append, hstep, ih f rest hf]
                · by_cases h7 : c = Char.ofNat 13
                  · subst h7
                    have hstep : ∀ X, parseStr (f + 1) ('\\' :: 'r' :: X) =
                        (match parseStr f X with
                         | .error msg => .error msg
                         | .ok (s, r) => .ok (Char.ofNat 13 :: s, r)) := fun X => rfl
                    rw [show escChar (Char.ofNat 13) = ['\\', 'r'] from rfl, List.cons_append,
                      List.cons_append, List.nil_append, hstep, ih f rest hf]
                  · by_cases h8 : c.toNat < 32
                    · have hesc : escChar c = ['\\', 'u', '0', '0',
                          hexChar (c.toNat / 16), hexChar (c.toNat % 16)] := by
                        rw [escChar, if_neg h1, if_neg h2, if_neg h3, if_neg h4, if_neg h5,
                          if_neg h6, if_neg h7, if_pos h8]
                      rw [hesc]
                      simp only [List.cons_append, List.nil_append]
                      rw [parseStr_unicode f _ _ _ _ _
                          (hexVal?_hexChar (by omega)) (hexVal?_hexChar (by omega)),
                        ih f rest hf]
                      have hc : Char.ofNat (4096 * 0 + 256 * 0 + 16 * (c.toNat / 16) + c.toNat % 16) = c := by
                        have h16 : 4096 * 0 + 256 * 0 + 16 * (c.toNat / 16) + c.toNat % 16 = c.toNat := by
                          omega
                        rw [h16, Char.ofNat_toNat]
                      rw [hc]
                    · have hesc : escChar c = [c] := by
                        rw [escChar, if_neg h1, if_neg h2, if_neg h3, if_neg h4, if_neg h5,
                          if_neg h6, if_neg h7, if_neg h8]
                      rw [hesc, List.cons_append, List.nil_append]
                      simp only [parseStr]
                      rw [if_neg h1, if_neg h2, if_neg h8, ih f rest hf]

theorem digitVal_digitChar {d : Nat} (h : d < 10) : digitVal (digitChar d) = d := by
  interval_cases d <;> rfl

theorem isDigitChar_digitChar {d : Nat} (h : d < 10) : isDigitChar (digitChar d) = true := by
  interval_cases d <;> rfl

theorem natToCharsAux_digits : ∀ (fuel n : Nat), n < fuel →
    ∀ c ∈ natToCharsAux fuel n, isDigitChar c = true := by
  intro fuel
  induction fuel with
  | zero => intro n h; omega
  | succ f ih =>
      intro n hn c hc
      rw [natToCharsAux] at hc
      by_cases h10 : n < 10
      · rw [if_pos h10] at hc
        simp only [List.mem_singleton] at hc
        rw [hc]
        exact isDigitChar_digitChar h10
      · rw [if_neg h10] at hc
        have hdiv : n / 10 < n := Nat.div_lt_self (by omega) (by omega)
        rcases List.mem_append.mp hc with h | h
        · exact ih (n / 10) (by omega) c h
        · simp only [List.mem_singleton] at h
          rw [h]
          exact isDigitChar_digitChar (by omega)

theorem natToCharsAux_ne_nil : ∀ (fuel n : Nat), n < fuel → natToCharsAux fuel n ≠ [] := by
  intro fuel n hn
  cases fuel with
  | zero => omega
  | succ f =>
      rw [natToCharsAux]
      by_cases h10 : n < 10
      · rw [if_pos h10]
        simp
      · rw [if_neg h10]
        simp

theorem natToCharsAux_fuel : ∀ (n fuel fuel' : Nat), n < fuel → n < fuel' →
    natToCharsAux fuel n = natToCharsAux fuel' n := by
  intro n
  induction n using Nat.strong_induction_on with
  | _ n ih =>
      intro fuel fuel' hf hf'
      cases fuel with
      | zero => omega
      | succ f =>
          cases fuel' with
          | zero => omega
          | succ f' =>
              rw [natToCharsAux, natToCharsAux]
              by_cases h10 : n < 10
              · rw [if_pos h10, if_pos h10]
              · rw [if_neg h10, if_neg h10]
                have hdiv : n / 10 < n := Nat.div_lt_self (by omega) (by omega)
                rw [ih (n / 10) hdiv f (f' ) (by omega) (by omega)]

theorem natToCharsAux_eq_natToChars {fuel n : Nat} (h : n < fuel) :
    natToCharsAux fuel n = natToChars n :=
  natToCharsAux_fuel n fuel (n + 1) h (Nat.lt_succ_self n)

theorem natToChars_digits (n : Nat) : ∀ c ∈ natToChars n, isDigitChar c = true :=
  natToCharsAux_digits (n + 1) n (Nat.lt_succ_self n)

theorem natToChars_ne_nil (n : Nat) : natToChars n ≠ [] :=
  natToCharsAux_ne_nil (n + 1) n (Nat.lt_succ_self n)

theorem parseNatChars_append (ds : List Char) (c : Char) :
    parseNatChars (ds ++ [c]) = 10 * parseNatChars ds + digitVal c := by
  simp [parseNatChars, List.foldl_append]

theorem parseNatChars_natToChars : ∀ n, parseNatChars (natToChars n) = n := by
  intro n
  induction n using Nat.strong_induction_on with
  | _ n ih =>
      rw [natToChars, natToCharsAux]
      by_cases h10 : n < 10
      · rw [if_pos h10]
        show parseNatChars [digitChar n] = n
        have : parseNatChars [digitChar n] = digitVal (digitChar n) := by
          simp [parseNatChars]
        rw [this, digitVal_digitChar h10]
      · rw [if_neg h10]
        have hdiv : n / 10 < n := Nat.div_lt_self (by omega) (by omega)
        rw [natToCharsAux_eq_natToChars (show n / 10 < n by omega), parseNatChars_append,
          ih (n / 10) hdiv, digitVal_digitChar (show n % 10 < 10 by omega)]
        omega

/-- Splitting off the leading digits of a dumped number. -/
theorem span_digits (ds rest : List Char) (hds : ∀ c ∈ ds, isDigitChar c = true)
    (hrest : ∀ c, rest.head? = some c → isDigitChar c = false) :
    (ds ++ rest).span isDigitChar = (ds, rest) := by
  rw [List.span_eq_take_drop]
  have htake : ∀ (l : List Char), (∀ c ∈ l, isDigitChar c = true) →
      (l ++ rest).takeWhile isDigitChar = l := by
    intro l hl
    induction l with
    | nil =>
        simp only [List.nil_append]
        cases hr : rest with
        | nil => rfl
        | cons c cs =>
            have hc : isDigitChar c = false := hrest c (by rw [hr]; rfl)
            simp [List.takeWhile_cons, hc]
    | cons d l' ih =>
        rw [List.cons_append, List.takeWhile_cons, hl d (List.mem_cons_self _ _)]
        simp only [if_true]
        rw [ih (fun c hc => hl c (List.mem_cons_of_mem _ hc))]
  have hdrop : ∀ (l : List Char), (∀ c ∈ l, isDigitChar c = true) →
      (l ++ rest).dropWhile isDigitChar = rest := by
    intro l hl
    induction l with
    | nil =>
        simp only [List.nil_append]
        cases hr : rest with
        | nil => rfl
        | cons c cs =>
            have hc : isDigitChar c = false := hrest c (by rw [hr]; rfl)
            simp [List.dropWhile_cons, hc]
    | cons d l' ih =>
        rw [List.cons_append, List.dropWhile_cons, hl d (List.mem_cons_self _ _)]
        simp only [if_true]
        exact ih (fun c hc => hl c (List.mem_cons_of_mem _ hc))
  rw [htake ds hds, hdrop ds hds]

theorem RestOk_not_digit {rest : List Char} (h : RestOk rest) :
    ∀ c, rest.head? = some c → isDigitChar c = false := by
  intro c hc
  rcases h with rfl | ⟨d, cs, rfl, hd⟩
  · simp at hc
  · simp only [List.head?_cons, Option.some.injEq] at hc
    subst hc
    rcases hd with rfl | rfl <;> rfl

theorem RestOk_not_float {rest : List Char} (h : RestOk rest) : startsFloat rest = false := by
  rcases h with rfl | ⟨d, cs, rfl, hd⟩
  · rfl
  · rcases hd with rfl | rfl <;> rfl

theorem natToChars_isEmpty (n : Nat) : (natToChars n).isEmpty = false := by
  cases h : natToChars n with
  | nil => exact absurd h (natToChars_ne_nil n)
  | cons c cs => rfl

theorem parseNum_intToChars (n : Int) (rest : List Char) (hrest : RestOk rest) :
    parseNum (intToChars n ++ rest) = .ok (.int n, rest) := by
  have hdig := natToChars_digits n.natAbs
  have hspan := span_digits (natToChars n.natAbs) rest hdig (RestOk_not_digit hrest)
  have hflo := RestOk_not_float hrest
  have hred : ∀ X : List Char, X.span isDigitChar = (natToChars n.natAbs, rest) →
      (match X.span isDigitChar with
       | (ds, r) =>
           if ds.isEmpty then (.error "Expecting value" : Except String (Json × List Char))
           else if startsFloat r then .error "Floating point is outside the model"
           else .ok (.int ((parseNatChars ds : Int)), r)) =
        .ok (.int ((parseNatChars (natToChars n.natAbs) : Int)), rest) := by
    intro X hX
    rw [hX]
    show (if (natToChars n.natAbs).isEmpty then
          (.error "Expecting value" : Except String (Json × List Char))
        else if startsFloat rest then .error "Floating point is outside the model"
        else .ok (.int ((parseNatChars (natToChars n.natAbs) : Int)), rest)) =
      .ok (.int ((parseNatChars (natToChars n.natAbs) : Int)), rest)
    rw [if_neg (by simp [natToChars_isEmpty]), if_neg (by simp [hflo])]
  have hredneg : ∀ X : List Char, X.span isDigitChar = (natToChars n.natAbs, rest) →
      (match X.span isDigitChar with
       | (ds, r) =>
           if ds.isEmpty then (.error "Expecting value" : Except String (Json × List Char))
           else if startsFloat r then .error "Floating point is outside the model"
           else .ok (.int (-(parseNatChars ds : Int)), r)) =
        .ok (.int (-(parseNatChars (natToChars n.natAbs) : Int)), rest) := by
    intro X hX
    rw [hX]
    show (if (natToChars n.natAbs).isEmpty then
          (.error "Expecting value" : Except String (Json × List Char))
        else if startsFloat rest then .error "Floating point is outside the model"
        else .ok (.int (-(parseNatChars (natToChars n.natAbs) : Int)), rest)) =
      .ok (.int (-(parseNatChars (natToChars n.natAbs) : Int)), rest)
    rw [if_neg (by simp [natToChars_isEmpty]), if_neg (by simp [hflo])]
  by_cases hneg : n < 0
  · rw [intToChars, if_pos hneg, List.cons_append]
    have hstep : parseNum ('-' :: (natToChars n.natAbs ++ rest)) =
        (match (natToChars n.natAbs ++ rest).span isDigitChar with
         | (ds, r) =>
             if ds.isEmpty then .error "Expecting value"
             else if startsFloat r then .error "Floating point is outside the model"
             else .ok (.int (-(parseNatChars ds : Int)), r)) := rfl
    rw [hstep, hredneg _ hspan, parseNatChars_natToChars]
    have hval : -((n.natAbs : Nat) : Int) = n := by omega
    rw [hval]
  · rw [intToChars, if_neg hneg]
    obtain ⟨c, cs', hc⟩ : ∃ c cs', natToChars n.natAbs = c :: cs' := by
      cases h : natToChars n.natAbs with
      | nil => exact absurd h (natToChars_ne_nil n.natAbs)
      | cons c cs => exact ⟨c, cs, rfl⟩
    have hcd : isDigitChar c = true := hdig c (by rw [hc]; exact List.mem_cons_self _ _)
    have hcm : c ≠ '-' := by
      intro h
      rw [h] at hcd
      exact absurd hcd (by decide)
    rw [hc, List.cons_append, parseNum,
      if_neg (by simp only [List.head?_cons, Option.some.injEq]; exact hcm),
      ← List.cons_append, ← hc, hred _ hspan, parseNatChars_natToChars]
    have hval : ((n.natAbs : Nat) : Int) = n := by omega
    rw [hval]

theorem jsonWs_of_digit {c : Char} (h : isDigitChar c = true) : jsonWs c = false := by
  by_contra hws
  have hws' : jsonWs c = true := by
    cases hw : jsonWs c
    · exact absurd hw hws
    · rfl
  have hcases : ((c = ' ' ∨ c = '\t') ∨ c = '\n') ∨ c = '\r' := by
    simpa [jsonWs] using hws'
  rcases hcases with ((rfl | rfl) | rfl) | rfl <;> exact absurd h (by decide)

theorem digit_ne {c : Char} (h : isDigitChar c = true) :
    c ≠ '[' ∧ c ≠ lbrace ∧ c ≠ '"' ∧ c ≠ 'n' ∧ c ≠ 't' ∧ c ≠ 'f' := by
  refine ⟨?_, ?_, ?_, ?_, ?_, ?_⟩ <;>
    (intro he; rw [he] at h; exact absurd h (by decide))

theorem parseValue_ws_absorb (f : Nat) {ws : List Char} (hws : WsList ws) (cs : List Char) :
    parseValue (f + 1) (ws ++ cs) = parseValue (f + 1) cs := by
  conv_lhs => rw [parseValue]
  conv_rhs => rw [parseValue]
  rw [skipWs_append hws]

theorem parseMembers_ws_absorb (f : Nat) {ws : List Char} (hws : WsList ws) (cs : List Char) :
    parseMembers (f + 1) (ws ++ cs) = parseMembers (f + 1) cs := by
  conv_lhs => rw [parseMembers]
  conv_rhs => rw [parseMembers]
  rw [skipWs_append hws]

/-- One unfolding step of `parseValue` on a non-whitespace head. -/
theorem parseValue_cons (f : Nat) (c : Char) (X : List Char) (hc : jsonWs c = false) :
    parseValue (f + 1) (c :: X) =
      (if c = '[' then
        if (skipWs X).head? = some ']' then .ok (.arr [], (skipWs X).tail)
        else
          match parseElems f X with
          | .error e => .error e
          | .ok (vs, r3) => .ok (.arr vs, r3)
      else if c = lbrace then
        if (skipWs X).head? = some rbrace then .ok (.obj [], (skipWs X).tail)
        else
          match parseMembers f X with
          | .error e => .error e
          | .ok (ms, r3) => .ok (.obj ms, r3)
      else if c = '"' then
        match parseStr f X with
        | .error e => .error e
        | .ok (s, r2) => .ok (.str (String.mk s), r2)
      else if c = 'n' then
        match X with
        | 'u' :: 'l' :: 'l' :: r2 => .ok (.null, r2)
        | _ => .error "Expecting value"
      else if c = 't' then
        match X with
        | 'r' :: 'u' :: 'e' :: r2 => .ok (.bool true, r2)
        | _ => .error "Expecting value"
      else if c = 'f' then
        match X with
        | 'a' :: 'l' :: 's' :: 'e' :: r2 => .ok (.bool false, r2)
        | _ => .error "Expecting value"
      else if c = '-' ∨ isDigitChar c then parseNum (c :: X)
      else .error "Expecting value") := by
  conv_lhs => rw [parseValue]
  rw [skipWs_cons_not hc]

mutual
theorem jfuel_pos : ∀ v : Json, 1 ≤ jfuel v
  | .null => le_refl 1
  | .bool _ => le_refl 1
  | .int _ => le_refl 1
  | .str s => by rw [jfuel]; omega
  | .arr l => by rw [jfuel]; omega
  | .obj l => by rw [jfuel]; omega

theorem efuel_pos : ∀ l : List Json, 1 ≤ efuel l
  | [] => le_refl 1
  | v :: vs => by rw [efuel]; omega

theorem mfuel_pos : ∀ l : List (String × Json), 1 ≤ mfuel l
  | [] => le_refl 1
  | m :: ms => by rw [mfuel]; omega
end

/-- The first character of a dumped value: never whitespace and never a
closing bracket. -/
theorem dumpVal_head (v : Json) (lvl : Nat) :
    ∃ c cs, dumpVal v lvl = c :: cs ∧ jsonWs c = false ∧ c ≠ ']' ∧ c ≠ rbrace := by
  cases v with
  | null => exact ⟨'n', _, by rw [dumpVal], by decide, by decide, by decide⟩
  | bool b =>
      cases b with
      | true => exact ⟨'t', _, by rw [dumpVal], by decide, by decide, by decide⟩
      | false => exact ⟨'f', _, by rw [dumpVal], by decide, by decide, by decide⟩
  | int n =>
      by_cases hneg : n < 0
      · refine ⟨'-', natToChars n.natAbs, ?_, by decide, by decide, by decide⟩
        rw [dumpVal, intToChars, if_pos hneg]
      · obtain ⟨c, cs', hc⟩ : ∃ c cs', natToChars n.natAbs = c :: cs' := by
          cases h : natToChars n.natAbs with
          | nil => exact absurd h (natToChars_ne_nil n.natAbs)
          | cons c cs => exact ⟨c, cs, rfl⟩
        have hcd : isDigitChar c = true :=
          natToChars_digits n.natAbs c (by rw [hc]; exact List.mem_cons_self _ _)
        refine ⟨c, cs', ?_, jsonWs_of_digit hcd, ?_, ?_⟩
        · rw [dumpVal, intToChars, if_neg hneg, hc]
        · intro he; rw [he] at hcd; exact absurd hcd (by decide)
        · intro he; rw [he] at hcd; exact absurd hcd (by decide)
  | str s => exact ⟨'"', _, by rw [dumpVal, encodeString], by decide, by decide, by decide⟩
  | arr l =>
      cases l with
      | nil => exact ⟨'[', _, by rw [dumpVal], by decide, by decide, by decide⟩
      | cons v vs => exact ⟨'[', _, by rw [dumpVal], by decide, by decide, by decide⟩
  | obj l =>
      cases l with
      | nil => exact ⟨lbrace, _, by rw [dumpVal], by decide, by decide, by decide⟩
      | cons m ms => exact ⟨lbrace, _, by rw [dumpVal], by decide, by decide, by decide⟩

/-- One unfolding step of `parseElems` once the leading value is parsed. -/
theorem parseElems_step (f : Nat) (cs : List Char) {v : Json} {r : List Char}
    (h : parseValue f cs = .ok (v, r)) :
    parseElems (f + 1) cs =
      (if (skipWs r).head? = some ',' then
        match parseElems f (skipWs r).tail with
        | .error e => .error e
        | .ok (vs, r3) => .ok (v :: vs, r3)
      else if (skipWs r).head? = some ']' then .ok ([v], (skipWs r).tail)
      else .error "Expecting delimiter") := by
  conv_lhs => rw [parseElems]
  rw [h]

/-- One unfolding step of `parseMembers` once the key string is parsed. -/
theorem parseMembers_step (f : Nat) (Y : List Char) {k : List Char} {r1 : List Char}
    (h : parseStr f Y = .ok (k, r1)) :
    parseMembers (f + 1) ('"' :: Y) =
      (if (skipWs r1).head? = some ':' then
        match parseValue f (skipWs r1).tail with
        | .error e => .error e
        | .ok (v, r3) =>
            if (skipWs r3).head? = some ',' then
              match parseMembers f (skipWs r3).tail with
              | .error e => .error e
              | .ok (ms, r5) => .ok ((String.mk k, v) :: ms, r5)
            else if (skipWs r3).head? = some rbrace then
              .ok ([(String.mk k, v)], (skipWs r3).tail)
            else .error "Expecting delimiter"
      else .error "Expecting colon delimiter") := by
  have h0 : parseMembers (f + 1) ('"' :: Y) =
      (match parseStr f Y with
       | .error e => .error e
       | .ok (k', r1') =>
           if (skipWs r1').head? = some ':' then
             match parseValue f (skipWs r1').tail with
             | .error e => .error e
             | .ok (v, r3) =>
                 if (skipWs r3).head? = some ',' then
                   match parseMembers f (skipWs r3).tail with
                   | .error e => .error e
                   | .ok (ms, r5) => .ok ((String.mk k', v) :: ms, r5)
                 else if (skipWs r3).head? = some rbrace then
                   .ok ([(String.mk k', v)], (skipWs r3).tail)
                 else .error "Expecting delimiter"
           else .error "Expecting colon delimiter") := by
    conv_lhs => rw [parseMembers]
    rw [skipWs_cons_not (by decide)]
    rfl
  rw [h0, h]

/-- The parser inverts the pretty-printer: with enough fuel, a dumped value
parses back to itself, leaving exactly the trailing input, regardless of
leading whitespace, indentation level, and a legal continuation. -/
theorem parse_dump_main : ∀ fuel : Nat,
    (∀ (v : Json) (lvl : Nat) (ws rest : List Char), WsList ws → RestOk rest →
        jfuel v ≤ fuel →
        parseValue fuel (ws ++ (dumpVal v lvl ++ rest)) = .ok (v, rest)) ∧
    (∀ (v : Json) (vs : List Json) (lvlE lvlC : Nat) (ws rest : List Char),
        WsList ws → RestOk rest → jfuel v + efuel vs ≤ fuel →
        parseElems fuel (ws ++ (dumpVal v lvlE ++ (dumpElems vs lvlE ++
          ('\n' :: (indentChars lvlC ++ (']' :: rest)))))) = .ok (v :: vs, rest)) ∧
    (∀ (k : String) (v : Json) (ms : List (String × Json)) (lvlE lvlC : Nat)
        (ws rest : List Char),
        WsList ws → RestOk rest → 1 + k.length + jfuel v + mfuel ms ≤ fuel →
        parseMembers fuel (ws ++ (dumpMember (k, v) lvlE ++ (dumpMembers ms lvlE ++
          ('\n' :: (indentChars lvlC ++ (rbrace :: rest)))))) = .ok ((k, v) :: ms, rest)) := by
  intro fuel
  induction fuel using Nat.strong_induction_on with
  | _ fuel IH =>
      cases fuel with
      | zero =>
          refine ⟨?_, ?_, ?_⟩
          · intro v _ _ _ _ _ hfu
            have := jfuel_pos v
            omega
          · intro v vs _ _ _ _ _ _ hfu
            have := jfuel_pos v
            have := efuel_pos vs
            omega
          · intro k v ms _ _ _ _ _ _ hfu
            have := jfuel_pos v
            have := mfuel_pos ms
            omega
      | succ f =>
          obtain ⟨IHv, IHe, IHm⟩ := IH f (Nat.lt_succ_self f)
          refine ⟨?_, ?_, ?_⟩
          · -- parseValue
            intro v lvl ws rest hws hrest hfu
            rw [parseValue_ws_absorb f hws]
            cases v with
            | null =>
                rw [show dumpVal .null lvl ++ rest = 'n' :: 'u' :: 'l' :: 'l' :: rest from
                  by rw [dumpVal]; rfl]
                rfl
            | bool b =>
                cases b with
                | true =>
                    rw [show dumpVal (.bool true) lvl ++ rest =
                        't' :: 'r' :: 'u' :: 'e' :: rest from by rw [dumpVal]; rfl]
                    rfl
                | false =>
                    rw [show dumpVal (.bool false) lvl ++ rest =
                        'f' :: 'a' :: 'l' :: 's' :: 'e' :: rest from by rw [dumpVal]; rfl]
                    rfl
            | int n =>
                rw [show dumpVal (.int n) lvl = intToChars n from by rw [dumpVal]]
                by_cases hneg : n < 0
                · rw [show intToChars n ++ rest = '-' :: (natToChars n.natAbs ++ rest) from
                    by rw [intToChars, if_pos hneg]; rfl]
                  have hstep : parseValue (f + 1) ('-' :: (natToChars n.natAbs ++ rest)) =
                      parseNum ('-' :: (natToChars n.natAbs ++ rest)) := rfl
                  rw [hstep, show ('-' :: (natToChars n.natAbs ++ rest)) =
                      intToChars n ++ rest from by rw [intToChars, if_pos hneg]; rfl]
                  exact parseNum_intToChars n rest hrest
                · obtain ⟨c, cs', hc⟩ : ∃ c cs', natToChars n.natAbs = c :: cs' := by
                    cases h : natToChars n.natAbs with
                    | nil => exact absurd h (natToChars_ne_nil n.natAbs)
                    | cons c cs => exact ⟨c, cs, rfl⟩
                  have hcd : isDigitChar c = true :=
                    natToChars_digits n.natAbs c (by rw [hc]; exact List.mem_cons_self _ _)
                  have hrw : intToChars n ++ rest = c :: (cs' ++ rest) := by
                    rw [intToChars, if_neg hneg, hc]; rfl
                  obtain ⟨h1, h2, h3, h4, h5, h6⟩ := digit_ne hcd
                  rw [hrw, parseValue_cons f c _ (jsonWs_of_digit hcd), if_neg h1, if_neg h2,
                    if_neg h3, if_neg h4, if_neg h5, if_neg h6, if_pos (Or.inr hcd), ← hrw]
                  exact parseNum_intToChars n rest hrest
            | str s =>
                rw [show dumpVal (.str s) lvl ++ rest =
                    '"' :: (encodeChars s.data ++ ('"' :: rest)) from
                  by rw [dumpVal, encodeString]; simp]
                rw [parseValue_cons f '"' _ (by decide), if_neg (by decide),
                  if_neg (by decide), if_pos rfl,
                  parseStr_encode s.data f rest (by
                    rw [jfuel] at hfu
                    have hdl : s.data.length = s.length := rfl
                    omega)]
            | arr l =>
                cases l with
                | nil =>
                    rw [show dumpVal (.arr []) lvl ++ rest = '[' :: (']' :: rest) from
                      by rw [dumpVal]; rfl]
                    rfl
                | cons v1 vs =>
                    rw [show dumpVal (.arr (v1 :: vs)) lvl ++ rest =
                        '[' :: ('\n' :: (indentChars (lvl + 2) ++ (dumpVal v1 (lvl + 2) ++
                          (dumpElems vs (lvl + 2) ++
                            ('\n' :: (indentChars lvl ++ (']' :: rest))))))) from
                      by rw [dumpVal]; simp]
                    rw [parseValue_cons f '[' _ (by decide), if_pos rfl]
                    obtain ⟨c1, t1, hc1, hc1ws, hc1ne, -⟩ := dumpVal_head v1 (lvl + 2)
                    have hskip : skipWs ('\n' :: (indentChars (lvl + 2) ++ (dumpVal v1 (lvl + 2) ++
                        (dumpElems vs (lvl + 2) ++ ('\n' :: (indentChars lvl ++ (']' :: rest))))))) =
                        c1 :: (t1 ++ (dumpElems vs (lvl + 2) ++
                          ('\n' :: (indentChars lvl ++ (']' :: rest))))) := by
                      have e1 : ('\n' :: (indentChars (lvl + 2) ++ (dumpVal v1 (lvl + 2) ++
                          (dumpElems vs (lvl + 2) ++ ('\n' :: (indentChars lvl ++ (']' :: rest))))))) =
                          ('\n' :: indentChars (lvl + 2)) ++ (dumpVal v1 (lvl + 2) ++
                          (dumpElems vs (lvl + 2) ++ ('\n' :: (indentChars lvl ++ (']' :: rest))))) := rfl
                      rw [e1, skipWs_append (WsList_newline_indent _), hc1, List.cons_append,
                        skipWs_cons_not hc1ws]
                    rw [hskip, List.head?_cons, if_neg (by simp [hc1ne])]
                    have helems := IHe v1 vs (lvl + 2) lvl ('\n' :: indentChars (lvl + 2)) rest
                      (WsList_newline_indent _) hrest (by rw [jfuel, efuel] at hfu; omega)
                    rw [show parseElems f ('\n' :: (indentChars (lvl + 2) ++ (dumpVal v1 (lvl + 2) ++
                        (dumpElems vs (lvl + 2) ++ ('\n' :: (indentChars lvl ++ (']' :: rest))))))) =
                        parseElems f (('\n' :: indentChars (lvl + 2)) ++ (dumpVal v1 (lvl + 2) ++
                        (dumpElems vs (lvl + 2) ++ ('\n' :: (indentChars lvl ++ (']' :: rest)))))) from
                      rfl, helems]
            | obj l =>
                cases l with
                | nil =>
                    rw [show dumpVal (.obj []) lvl ++ rest = lbrace :: (rbrace :: rest) from
                      by rw [dumpVal]; rfl]
                    rfl
                | cons m ms =>
                    obtain ⟨k, v1⟩ := m
                    rw [show dumpVal (.obj ((k, v1) :: ms)) lvl ++ rest =
                        lbrace :: ('\n' :: (indentChars (lvl + 2) ++ (dumpMember (k, v1) (lvl + 2) ++
                          (dumpMembers ms (lvl + 2) ++
                            ('\n' :: (indentChars lvl ++ (rbrace :: rest))))))) from
                      by rw [dumpVal]; simp]
                    rw [parseValue_cons f lbrace _ (by decide), if_neg (by decide), if_pos rfl]
                    have hskip : skipWs ('\n' :: (indentChars (lvl + 2) ++ (dumpMember (k, v1) (lvl + 2) ++
                        (dumpMembers ms (lvl + 2) ++ ('\n' :: (indentChars lvl ++ (rbrace :: rest))))))) =
                        '"' :: ((encodeChars k.data ++ ('"' :: (':' :: (' ' :: dumpVal v1 (lvl + 2))))) ++
                          (dumpMembers ms (lvl + 2) ++ ('\n' :: (indentChars lvl ++ (rbrace :: rest))))) := by
                      have e1 : ('\n' :: (indentChars (lvl + 2) ++ (dumpMember (k, v1) (lvl + 2) ++
                          (dumpMembers ms (lvl + 2) ++ ('\n' :: (indentChars lvl ++ (rbrace :: rest))))))) =
                          ('\n' :: indentChars (lvl + 2)) ++ (dumpMember (k, v1) (lvl + 2) ++
                          (dumpMembers ms (lvl + 2) ++ ('\n' :: (indentChars lvl ++ (rbrace :: rest))))) := rfl
                      rw [e1, skipWs_append (WsList_newline_indent _),
                        show dumpMember (k, v1) (lvl + 2) =
                          '"' :: (encodeChars k.data ++ ('"' :: (':' :: (' ' :: dumpVal v1 (lvl + 2))))) from
                        by rw [dumpMember, encodeString]; simp, List.cons_append,
                        skipWs_cons_not (by decide)]
                    rw [hskip, List.head?_cons, if_neg (by decide)]
                    have hmems := IHm k v1 ms (lvl + 2) lvl ('\n' :: indentChars (lvl + 2)) rest
                      (WsList_newline_indent _) hrest (by rw [jfuel, mfuel] at hfu; simp at hfu ⊢; omega)
                    rw [show parseMembers f ('\n' :: (indentChars (lvl + 2) ++ (dumpMember (k, v1) (lvl + 2) ++
                        (dumpMembers ms (lvl + 2) ++ ('\n' :: (indentChars lvl ++ (rbrace :: rest))))))) =
                        parseMembers f (('\n' :: indentChars (lvl + 2)) ++ (dumpMember (k, v1) (lvl + 2) ++
                        (dumpMembers ms (lvl + 2) ++ ('\n' :: (indentChars lvl ++ (rbrace :: rest)))))) from
                      rfl, hmems]
          · -- parseElems
            intro v vs lvlE lvlC ws rest hws hrest hfu
            have hr1 : RestOk (dumpElems vs lvlE ++ ('\n' :: (indentChars lvlC ++ (']' :: rest)))) := by
              cases vs with
              | nil => exact Or.inr ⟨'\n', _, by rw [dumpElems]; rfl, Or.inr rfl⟩
              | cons v2 vs2 => exact Or.inr ⟨',', _, by rw [dumpElems]; rfl, Or.inl rfl⟩
            have hval := IHv v lvlE ws (dumpElems vs lvlE ++ ('\n' :: (indentChars lvlC ++ (']' :: rest))))
              hws hr1 (by have := efuel_pos vs; omega)
            rw [parseElems_step f _ hval]
            cases vs with
            | nil =>
                have hsk : skipWs (dumpElems ([] : List Json) lvlE ++
                    ('\n' :: (indentChars lvlC ++ (']' :: rest)))) = ']' :: rest := by
                  rw [dumpElems, List.nil_append, ← List.cons_append,
                    skipWs_append (WsList_newline_indent _), skipWs_cons_not (by decide)]
                rw [hsk, List.head?_cons, if_neg (by decide), if_pos rfl, List.tail_cons]
            | cons v2 vs2 =>
                have hre : dumpElems (v2 :: vs2) lvlE ++ ('\n' :: (indentChars lvlC ++ (']' :: rest))) =
                    ',' :: ('\n' :: (indentChars lvlE ++ (dumpVal v2 lvlE ++ (dumpElems vs2 lvlE ++
                      ('\n' :: (indentChars lvlC ++ (']' :: rest))))))) := by
                  rw [dumpElems]; simp
                rw [hre, skipWs_cons_not (by decide), List.head?_cons, if_pos rfl, List.tail_cons]
                have helems2 := IHe v2 vs2 lvlE lvlC ('\n' :: indentChars lvlE) rest
                  (WsList_newline_indent _) hrest
                  (by rw [efuel] at hfu; have := jfuel_pos v; omega)
                rw [show parseElems f ('\n' :: (indentChars lvlE ++ (dumpVal v2 lvlE ++ (dumpElems vs2 lvlE ++
                    ('\n' :: (indentChars lvlC ++ (']' :: rest))))))) =
                    parseElems f (('\n' :: indentChars lvlE) ++ (dumpVal v2 lvlE ++ (dumpElems vs2 lvlE ++
                    ('\n' :: (indentChars lvlC ++ (']' :: rest)))))) from rfl, helems2]
          · -- parseMembers
            intro k v ms lvlE lvlC ws rest hws hrest hfu
            rw [parseMembers_ws_absorb f hws]
            rw [show dumpMember (k, v) lvlE ++ (dumpMembers ms lvlE ++
                ('\n' :: (indentChars lvlC ++ (rbrace :: rest)))) =
                '"' :: (encodeChars k.data ++ ('"' :: (':' :: (' ' :: (dumpVal v lvlE ++
                  (dumpMembers ms lvlE ++ ('\n' :: (indentChars lvlC ++ (rbrace :: rest))))))))) from
              by rw [dumpMember, encodeString]; simp]
            have hstr : parseStr f (encodeChars k.data ++ ('"' :: (':' :: (' ' :: (dumpVal v lvlE ++
                (dumpMembers ms lvlE ++ ('\n' :: (indentChars lvlC ++ (rbrace :: rest))))))))) =
                .ok (k.data, ':' :: (' ' :: (dumpVal v lvlE ++ (dumpMembers ms lvlE ++
                  ('\n' :: (indentChars lvlC ++ (rbrace :: rest))))))) :=
              parseStr_encode k.data f _ (by
                have := jfuel_pos v
                have := mfuel_pos ms
                have hkl : k.data.length = k.length := rfl
                omega)
            rw [parseMembers_step f _ hstr, skipWs_cons_not (by decide), List.head?_cons,
              if_pos rfl, List.tail_cons]
            have hr2 : RestOk (dumpMembers ms lvlE ++ ('\n' :: (indentChars lvlC ++ (rbrace :: rest)))) := by
              cases ms with
              | nil => exact Or.inr ⟨'\n', _, by rw [dumpMembers]; rfl, Or.inr rfl⟩
              | cons m2 ms2 => exact Or.inr ⟨',', _, by rw [dumpMembers]; rfl, Or.inl rfl⟩
            have hval := IHv v lvlE [' '] (dumpMembers ms lvlE ++ ('\n' :: (indentChars lvlC ++ (rbrace :: rest))))
              (by intro c hc; simp only [List.mem_singleton] at hc; rw [hc]; rfl) hr2
              (by have := mfuel_pos ms; omega)
            rw [show parseValue f (' ' :: (dumpVal v lvlE ++ (dumpMembers ms lvlE ++
                ('\n' :: (indentChars lvlC ++ (rbrace :: rest)))))) =
                parseValue f ([' '] ++ (dumpVal v lvlE ++ (dumpMembers ms lvlE ++
                ('\n' :: (indentChars lvlC ++ (rbrace :: rest)))))) from rfl, hval]
            show (if (skipWs (dumpMembers ms lvlE ++ ('\n' :: (indentChars lvlC ++
                  (rbrace :: rest))))).head? = some ',' then
                match parseMembers f (skipWs (dumpMembers ms lvlE ++ ('\n' :: (indentChars lvlC ++
                  (rbrace :: rest))))).tail with
                | Except.error e => Except.error e
                | Except.ok (ms', r5) => Except.ok ((String.mk k.data, v) :: ms', r5)
              else if (skipWs (dumpMembers ms lvlE ++ ('\n' :: (indentChars lvlC ++
                  (rbrace :: rest))))).head? = some rbrace then
                Except.ok ([(String.mk k.data, v)], (skipWs (dumpMembers ms lvlE ++
                  ('\n' :: (indentChars lvlC ++ (rbrace :: rest))))).tail)
              else Except.error "Expecting delimiter") = Except.ok ((k, v) :: ms, rest)
            cases ms with
            | nil =>
                have hsk : skipWs (dumpMembers ([] : List (String × Json)) lvlE ++
                    ('\n' :: (indentChars lvlC ++ (rbrace :: rest)))) = rbrace :: rest := by
                  rw [dumpMembers, List.nil_append, ← List.cons_append,
                    skipWs_append (WsList_newline_indent _), skipWs_cons_not (by decide)]
                rw [hsk, List.head?_cons, if_neg (by decide), if_pos rfl, List.tail_cons]
            | cons m2 ms2 =>
                obtain ⟨k2, v2⟩ := m2
                have hre : dumpMembers ((k2, v2) :: ms2) lvlE ++
                    ('\n' :: (indentChars lvlC ++ (rbrace :: rest))) =
                    ',' :: ('\n' :: (indentChars lvlE ++ (dumpMember (k2, v2) lvlE ++
                      (dumpMembers ms2 lvlE ++ ('\n' :: (indentChars lvlC ++ (rbrace :: rest))))))) := by
                  rw [dumpMembers]; simp
                rw [hre, skipWs_cons_not (by decide), List.head?_cons, if_pos rfl, List.tail_cons]
                have hmems2 := IHm k2 v2 ms2 lvlE lvlC ('\n' :: indentChars lvlE) rest
                  (WsList_newline_indent _) hrest
                  (by rw [mfuel] at hfu; simp at hfu ⊢; have := jfuel_pos v; omega)
                rw [show parseMembers f ('\n' :: (indentChars lvlE ++ (dumpMember (k2, v2) lvlE ++
                    (dumpMembers ms2 lvlE ++ ('\n' :: (indentChars lvlC ++ (rbrace :: rest))))))) =
                    parseMembers f (('\n' :: indentChars lvlE) ++ (dumpMember (k2, v2) lvlE ++
                    (dumpMembers ms2 lvlE ++ ('\n' :: (indentChars lvlC ++ (rbrace :: rest)))))) from
                  rfl, hmems2]

theorem escChar_length_pos (c : Char) : 1 ≤ (escChar c).length := by
  rw [escChar]
  split_ifs <;> simp

theorem encodeChars_length (cs : List Char) : cs.length ≤ (encodeChars cs).length := by
  induction cs with
  | nil => simp [encodeChars]
  | cons c cs ih =>
      have h : encodeChars (c :: cs) = escChar c ++ encodeChars cs := by simp [encodeChars]
      rw [h, List.length_append, List.length_cons]
      have := escChar_length_pos c
      omega

mutual
theorem jfuel_le_dump : ∀ (v : Json) (lvl : Nat), jfuel v ≤ (dumpVal v lvl).length + 1
  | .null, lvl => by rw [jfuel, dumpVal]; simp
  | .bool true, lvl => by rw [jfuel, dumpVal]; simp
  | .bool false, lvl => by rw [jfuel, dumpVal]; simp
  | .int n, lvl => by rw [jfuel]; omega
  | .str s, lvl => by
      rw [jfuel, dumpVal, encodeString]
      have h1 := encodeChars_length s.data
      have h2 : s.data.length = s.length := rfl
      simp only [List.length_cons, List.length_append, List.length_singleton]
      omega
  | .arr [], lvl => by rw [jfuel, efuel, dumpVal]; simp
  | .arr (v :: vs), lvl => by
      have h1 := jfuel_le_dump v (lvl + 2)
      have h2 := efuel_le_dump vs (lvl + 2)
      rw [jfuel, efuel, dumpVal]
      simp only [List.length_cons, List.length_append, indentChars, List.length_replicate,
        List.length_singleton]
      omega
  | .obj [], lvl => by rw [jfuel, mfuel, dumpVal]; simp
  | .obj (m :: ms), lvl => by
      have h1 := memberfuel_le_dump m (lvl + 2)
      have h2 := mfuel_le_dump ms (lvl + 2)
      rw [jfuel, dumpVal]
      rw [show mfuel (m :: ms) = 2 + m.1.length + jfuel m.2 + mfuel ms from by rw [mfuel]]
      simp only [List.length_cons, List.length_append, indentChars, List.length_replicate,
        List.length_singleton]
      omega

theorem memberfuel_le_dump : ∀ (m : String × Json) (lvl : Nat),
    2 + m.1.length + jfuel m.2 ≤ (dumpMember m lvl).length + 1
  | (k, v), lvl => by
      have h1 := jfuel_le_dump v lvl
      have h2 := encodeChars_length k.data
      have h3 : k.data.length = k.length := rfl
      rw [dumpMember, encodeString]
      simp only [List.length_append, List.length_cons]
      omega

theorem efuel_le_dump : ∀ (vs : List Json) (lvl : Nat), efuel vs ≤ (dumpElems vs lvl).length + 1
  | [], lvl => by rw [efuel, dumpElems]; simp
  | v :: vs, lvl => by
      have h1 := jfuel_le_dump v lvl
      have h2 := efuel_le_dump vs lvl
      rw [efuel, dumpElems]
      simp only [List.length_cons, List.length_append, indentChars, List.length_replicate]
      omega

theorem mfuel_le_dump : ∀ (ms : List (String × Json)) (lvl : Nat),
    mfuel ms ≤ (dumpMembers ms lvl).length + 1
  | [], lvl => by rw [mfuel, dumpMembers]; simp
  | m :: ms, lvl => by
      have h1 := memberfuel_le_dump m lvl
      have h2 := mfuel_le_dump ms lvl
      rw [show mfuel (m :: ms) = 2 + m.1.length + jfuel m.2 + mfuel ms from by rw [mfuel],
        dumpMembers]
      simp only [List.length_cons, List.length_append, indentChars, List.length_replicate]
      omega
end

/-- Top-level roundtrip: `json.load` inverts `json.dump` exactly. -/
theorem parseJson_dumpStr (v : Json) : parseJson (dumpStr v) = .ok v := by
  have hfuel : jfuel v ≤ 2 * (dumpVal v 0).length + 2 := by
    have := jfuel_le_dump v 0
    omega
  have h := (parse_dump_main (2 * (dumpVal v 0).length + 2)).1 v 0 [] [] WsList_nil
    (Or.inl rfl) hfuel
  rw [List.nil_append, List.append_nil] at h
  have key : parseValue (2 * (dumpStr v).length + 2) (dumpStr v).data = .ok (v, []) := h
  rw [parseJson, key]
  rfl

/-- C6: `load_quotes` surfaces no error in either failure situation: an
absent file is created holding the empty JSON array `[]` and the empty
collection is returned; a file whose content is empty or not valid JSON
(`parseJson` fails) yields the empty collection with the file untouched. -/
theorem load_failure_returns_empty :
    load_quotes none = (Json.arr [], some "[]") ∧
    ∀ (s e : String), parseJson s = .error e →
      load_quotes (some s) = (Json.arr [], some s) := by
  constructor
  · show (Json.arr [], save_quotes (Json.arr []) none) = (Json.arr [], some "[]")
    rw [save_quotes, show dumpStr (Json.arr []) = "[]" from by rw [dumpStr, dumpVal]]
  · intro s e h
    simp only [load_quotes]
    rw [h]

/-- Witness for C6: a file with empty content parses as nothing and loads as
the empty collection. -/
theorem load_failure_returns_empty_witness :
    load_quotes (some "") = (Json.arr [], some "") :=
  load_failure_returns_empty.2 "" "Expecting value" (by rfl)

/-- C7: saving any collection and loading it back returns exactly the same
collection (every field of every quote preserved, as the parsed JSON value is
identical), and any string whose characters need no escaping — all non-ASCII
characters included — is written literally, not escaped. -/
theorem save_load_roundtrip :
    (∀ (v : Json) (file : Option String),
        load_quotes (save_quotes v file) = (v, some (dumpStr v))) ∧
    (∀ s : String, (∀ c ∈ s.data, 32 ≤ c.toNat ∧ c ≠ '"' ∧ c ≠ '\\') →
        encodeString s = '"' :: (s.data ++ ['"'])) := by
  constructor
  · intro v file
    rw [save_quotes]
    simp only [load_quotes]
    rw [parseJson_dumpStr v]
  · intro s hs
    have hall : ∀ cs : List Char, (∀ c ∈ cs, 32 ≤ c.toNat ∧ c ≠ '"' ∧ c ≠ '\\') →
        encodeChars cs = cs := by
      intro cs
      induction cs with
      | nil => intro _; simp [encodeChars]
      | cons c cs ih =>
          intro h
          obtain ⟨h32, hq, hb⟩ := h c (List.mem_cons_self _ _)
          have hesc : escChar c = [c] := by
            rw [escChar, if_neg hq, if_neg hb,
              if_neg (fun he => absurd h32 (by rw [he]; decide)),
              if_neg (fun he => absurd h32 (by rw [he]; decide)),
              if_neg (fun he => absurd h32 (by rw [he]; decide)),
              if_neg (fun he => absurd h32 (by rw [he]; decide)),
              if_neg (fun he => absurd h32 (by rw [he]; decide)),
              if_neg (by omega)]
          have hsplit : encodeChars (c :: cs) = escChar c ++ encodeChars cs := by
            simp [encodeChars]
          rw [hsplit, hesc, ih (fun d hd => h d (List.mem_cons_of_mem _ hd))]
          rfl
    rw [encodeString, hall s.data hs]

/-- Witness for C7: a quote with macrons survives the save-load roundtrip,
and its non-ASCII characters are written literally. -/
theorem save_load_roundtrip_witness :
    load_quotes (save_quotes (Json.arr [Json.obj [("latin_text", Json.str "Vēnī, vīdī, vīcī")]]) none) =
      (Json.arr [Json.obj [("latin_text", Json.str "Vēnī, vīdī, vīcī")]],
        some (dumpStr (Json.arr [Json.obj [("latin_text", Json.str "Vēnī, vīdī, vīcī")]]))) ∧
    encodeString "Vēnī" = '"' :: (("Vēnī").data ++ ['"']) :=
  ⟨save_load_roundtrip.1 (Json.arr [Json.obj [("latin_text", Json.str "Vēnī, vīdī, vīcī")]]) none,
   save_load_roundtrip.2 "Vēnī" (by decide)⟩

end LatinQuotes
